import Mathlib

/-!
Verification of the cover-letter template filler (`cv-filler.py`).

Strings are modelled as `List Char`.  Each Python function of the source is
embedded as a Lean definition of the same name; the document model follows
`python-docx`: a paragraph is a list of formatting runs (each run carrying a
text payload), a document has top-level paragraphs and tables, a table has
rows, rows have cells, cells have paragraphs.
-/

set_option maxHeartbeats 1000000
set_option linter.unusedVariables false

namespace CvFiller

/-- Text, modelled as a list of characters. -/
abbrev Str := List Char

/-- A paragraph: the ordered list of the text payloads of its runs.
`paragraph.text` in `python-docx` is the concatenation of the run texts. -/
abbrev Para := List Str

/-- A table cell holds a list of paragraphs. -/
abbrev Cell := List Para

/-- A table row holds a list of cells. -/
abbrev Row := List Cell

/-- A table holds a list of rows. -/
abbrev Table := List Row

/-- A document: top-level paragraphs plus tables. -/
structure Document where
  paragraphs : List Para
  tables : List Table

/-- `paragraph.text`: concatenation of the run texts. -/
def paraText (p : Para) : Str := p.flatten

/-- `invalid_chars = '<>:"/\\|?*'` from `sanitize_filename`. -/
def invalid_chars : Str := ['<', '>', ':', '"', '/', '\\', '|', '?', '*']

/-- Python whitespace test used by `str.strip`, restricted to the usual
ASCII whitespace recognised by `Char.isWhitespace`. -/
def isSpace (c : Char) : Bool := c.isWhitespace

/-- `str.strip()`: drop leading and trailing whitespace. -/
def pyStrip (s : Str) : Str :=
  ((s.dropWhile isSpace).reverse.dropWhile isSpace).reverse

/-- One scanning pass of `re.findall(r"\[([^\]]+)\]", text)`: from each `'['`
the regex greedily takes the maximal run of non-`']'` characters; the match
succeeds when that run is non-empty and is followed by `']'`, and scanning
resumes after the closing bracket.  On failure the scan position advances by
one character. -/
def scanAux : Str → List Str
  | [] => []
  | c :: rest =>
    if c = '[' then
      let name := rest.takeWhile (· ≠ ']')
      if name ≠ [] ∧ rest.dropWhile (· ≠ ']') ≠ [] then
        name :: scanAux (rest.drop (name.length + 1))
      else
        scanAux rest
    else
      scanAux rest
termination_by s => s.length
decreasing_by
  · simp only [List.length_drop, List.length_cons]; omega
  · simp
  · simp

/-- `extract_placeholders_from_text`: the set of `[placeholder]` names in a
text, as the deduplicated list of regex matches. -/
def extract_placeholders_from_text (text : Str) : List Str :=
  (scanAux text).dedup

/-- All paragraphs of a document in traversal order: top-level paragraphs,
then every paragraph of every cell of every row of every table. -/
def allParas (doc : Document) : List Para :=
  doc.paragraphs ++
    doc.tables.flatMap (fun table =>
      table.flatMap (fun row => row.flatMap (fun cell => cell)))

/-- `extract_placeholders`: all distinct placeholder names of the document
(paragraphs and table cells), sorted as Python `sorted` does. -/
def extract_placeholders (doc : Document) : List Str :=
  List.insertionSort (· ≤ ·)
    ((allParas doc).flatMap (fun p => scanAux (paraText p))).dedup

/-- Whether `placeholder.lower() == "date"`. -/
def isDateName (name : Str) : Bool :=
  name.map Char.toLower = "date".data

/-- `prompt_for_values`: the interactive input stream is abstracted as the
function `inputs` giving the raw text of the `idx`-th prompt answered, and
`today` is the `datetime.now().strftime("%Y-%m-%d")` string. -/
def promptAux (today : Str) (inputs : Nat → Str) :
    List Str → Nat → List (Str × Str)
  | [], _ => []
  | p :: ps, idx =>
    if isDateName p then
      (p, today) :: promptAux today inputs ps idx
    else
      (p, pyStrip (inputs idx)) :: promptAux today inputs ps (idx + 1)

/-- `prompt_for_values(placeholders)` as a value set in insertion order. -/
def prompt_for_values (today : Str) (inputs : Nat → Str)
    (placeholders : List Str) : List (Str × Str) :=
  promptAux today inputs placeholders 0

/-- `str.replace(old, new)`: replace all non-overlapping occurrences of
`pat` by `rep`, scanning left to right (for non-empty `pat`). -/
def strReplace (s pat rep : Str) : Str :=
  match s with
  | [] => []
  | c :: s' =>
    if pat ≠ [] ∧ pat.isPrefixOf (c :: s') then
      rep ++ strReplace ((c :: s').drop pat.length) pat rep
    else
      c :: strReplace s' pat rep
termination_by s.length
decreasing_by
  · simp only [List.length_drop, List.length_cons]
    rename_i h
    have : pat.length ≠ 0 := by
      intro h0
      exact h.1 (List.eq_nil_of_length_eq_zero h0)
    omega
  · simp

/-- `sanitize_filename`: remove each invalid character in turn, then strip
whitespace. -/
def sanitize_filename (name : Str) : Str :=
  pyStrip (invalid_chars.foldl (fun acc c => strReplace acc [c] []) name)

/-- The company component of the output filename computed in `save_as_pdf`:
`sanitize_filename(company_name) if company_name else "Unknown"`. -/
def companyComponent (company_name : Str) : Str :=
  if company_name = [] then "Unknown".data else sanitize_filename company_name

/-- The bracketed token `f"[{placeholder}]"`. -/
def tok (name : Str) : Str := '[' :: (name ++ [']'])

/-- `bracketed in run.text`: substring test. -/
def containsTok (s pat : Str) : Prop := pat <:+: s

instance (s pat : Str) : Decidable (containsTok s pat) :=
  inferInstanceAs (Decidable (pat <:+: s))

/-- The body of the per-run loop of `replace_in_paragraph`: for each
`(placeholder, value)` pair in dictionary order, if `f"[{placeholder}]"`
occurs in the run text, replace every occurrence by the value. -/
def replaceRun (values : List (Str × Str)) (t : Str) : Str :=
  values.foldl
    (fun acc kv =>
      if containsTok acc (tok kv.1) then strReplace acc (tok kv.1) kv.2 else acc)
    t

/-- `replace_in_paragraph`: skip the paragraph when a regex search over its
full concatenated text finds no bracket pattern, otherwise run the per-run
replacement loop on every run. -/
def replace_in_paragraph (p : Para) (values : List (Str × Str)) : Para :=
  if scanAux (paraText p) = [] then p else p.map (replaceRun values)

/-- `fill_template`: substitute in every top-level paragraph and in every
paragraph of every table cell. -/
def fill_template (doc : Document) (values : List (Str × Str)) : Document where
  paragraphs := doc.paragraphs.map (replace_in_paragraph · values)
  tables :=
    doc.tables.map (fun table =>
      table.map (fun row =>
        row.map (fun cell =>
          cell.map (replace_in_paragraph · values))))

/-- Decimal digit character, as Python `str(n)` renders digits. -/
def decDigit : Nat → Char
  | 0 => '0' | 1 => '1' | 2 => '2' | 3 => '3' | 4 => '4'
  | 5 => '5' | 6 => '6' | 7 => '7' | 8 => '8' | _ => '9'

/-- Numeric value of a decimal digit character. -/
def digitVal (c : Char) : Nat := c.toNat - 48

/-- Numeric value of a decimal digit string (left inverse of `natToDec`,
used to show distinct counters give distinct filenames). -/
def decVal (s : Str) : Nat := s.foldl (fun a c => 10 * a + digitVal c) 0

/-- Python `str(n)` for a natural number: decimal rendering. -/
def natToDec (n : Nat) : Str :=
  if h : n < 10 then [decDigit n] else natToDec (n / 10) ++ [decDigit (n % 10)]
termination_by n
decreasing_by
  have : 10 ≤ n := Nat.le_of_not_lt h
  omega

/-- The candidate output name `f"CoverLetter_{safe_company}_{date_str}.pdf"`. -/
def pdfBaseName (safe date : Str) : Str :=
  "CoverLetter_".data ++ safe ++ "_".data ++ date ++ ".pdf".data

/-- The collision-numbered name
`f"CoverLetter_{safe_company}_{date_str}_{counter}.pdf"`. -/
def pdfNumberedName (safe date : Str) (counter : Nat) : Str :=
  "CoverLetter_".data ++ safe ++ "_".data ++ date ++ "_".data ++
    natToDec counter ++ ".pdf".data

/-- The `while final_pdf_path.exists(): counter += 1` loop of `save_as_pdf`,
with explicit fuel (the caller passes enough fuel for the loop to reach a
free name, which always exists in a finite directory). -/
def findFreeCounter (outputs : List Str) (safe date : Str) :
    Nat → Nat → Nat
  | 0, k => k
  | fuel + 1, k =>
    if pdfNumberedName safe date k ∈ outputs then
      findFreeCounter outputs safe date fuel (k + 1)
    else k

/-- What the external converter invocation does: either some step of the
`try` body raises, or the subprocess returns exit code `rc` having produced
(or not) the expected `<temp stem>.pdf` file in the output directory. -/
inductive ConvEvent where
  | raise : ConvEvent
  | run (rc : Int) (produced : Bool) : ConvEvent

/-- Observable outcome of `save_as_pdf`: the returned value (`.error ()` when
an exception propagates out, otherwise `none` or the final artifact name),
the contents of the output directory, and whether the temporary `.docx`
still exists. -/
structure SaveOutcome where
  result : Except Unit (Option Str)
  outputs : List Str
  tempExists : Bool

/-- `save_as_pdf`, over an output directory modelled as the list of file
names it holds.  `tempStem` is the basename of the temporary `.docx` file,
so the converter's expected product is `tempStem ++ ".pdf"`. -/
def save_as_pdf (outputs : List Str) (company_name date_str tempStem : Str)
    (ev : ConvEvent) : SaveOutcome :=
  let safe := companyComponent company_name
  let candidate := pdfBaseName safe date_str
  match ev with
  | .raise => ⟨.error (), outputs, false⟩
  | .run rc produced =>
    let tempPdf := tempStem ++ ".pdf".data
    let outputs1 := if produced then outputs ++ [tempPdf] else outputs
    if rc ≠ 0 then ⟨.ok none, outputs1, false⟩
    else
      let finalName :=
        if candidate ∈ outputs1 then
          pdfNumberedName safe date_str
            (findFreeCounter outputs1 safe date_str (outputs1.length + 1) 1)
        else candidate
      if tempPdf ∈ outputs1 then
        ⟨.ok (some finalName), outputs1.erase tempPdf ++ [finalName], false⟩
      else ⟨.ok none, outputs1, false⟩

/-- `values.get(key)` on the Python dict built by `prompt_for_values`. -/
def dictGet (values : List (Str × Str)) (key : Str) : Option Str :=
  (values.find? (fun kv => kv.1 = key)).map (·.2)

/-- Python `a or b` where `a` is `values.get(...)`: keep `a` when it is a
non-empty string, otherwise fall through. -/
def pyOrElse (a : Option Str) (b : Str) : Str :=
  match a with
  | some v => if v = [] then b else v
  | none => b

/-- The company-name derivation in `main`:
`values.get("Company Name") or values.get("Company") or values.get("Employer") or ""`. -/
def companyOf (values : List (Str × Str)) : Str :=
  pyOrElse (dictGet values "Company Name".data)
    (pyOrElse (dictGet values "Company".data)
      (pyOrElse (dictGet values "Employer".data) []))

/-- `pat` occurs in `t` at position `i`. -/
def Occ (t pat : Str) (i : Nat) : Prop := pat <+: t.drop i

/-- Bracket discipline of a text: the interior of every minimal bracket
token (a `'['`, a `']'`-free interior, then `']'`) contains no `'['`.  This
holds for any paragraph whose scanned placeholder names are `'['`-free, and
is the key invariant of the substitution proofs. -/
def CleanBrackets (t : Str) : Prop :=
  ∀ γ : Str, ']' ∉ γ → tok γ <:+: t → '[' ∉ γ

/-- `pat`, occurring at position `i` of the concatenation of the runs `rs`,
lies wholly within a single run. -/
def InOneRun (pat : Str) : List Str → Nat → Prop
  | [], _ => False
  | r :: rs, i => i + pat.length ≤ r.length ∨ (r.length ≤ i ∧ InOneRun pat rs (i - r.length))

/-- Every occurrence of `pat` in the concatenated text of the runs `rs`
lies wholly within a single run. -/
def RunLocal (rs : List Str) (pat : Str) : Prop :=
  ∀ i, Occ rs.flatten pat i → InOneRun pat rs i

/-! ### Basic facts about `strReplace` -/

theorem strReplace_nil (pat rep : Str) : strReplace [] pat rep = [] := by
  simp [strReplace]

theorem strReplace_cons_pos (c : Char) (s pat rep : Str) (hp : pat ≠ [])
    (h : pat <+: c :: s) :
    strReplace (c :: s) pat rep =
      rep ++ strReplace ((c :: s).drop pat.length) pat rep := by
  rw [strReplace]
  rw [if_pos]
  exact ⟨hp, List.isPrefixOf_iff_prefix.mpr h⟩

theorem strReplace_cons_neg (c : Char) (s pat rep : Str)
    (h : ¬ pat <+: c :: s) :
    strReplace (c :: s) pat rep = c :: strReplace s pat rep := by
  rw [strReplace]
  rw [if_neg]
  intro hcon
  exact h (List.isPrefixOf_iff_prefix.mp hcon.2)

theorem strReplace_singleton_nil (c : Char) (s : Str) :
    strReplace s [c] [] = s.filter (· ≠ c) := by
  induction s with
  | nil => simp [strReplace]
  | cons a s ih =>
    by_cases hca : c = a
    · subst hca
      rw [strReplace_cons_pos c s [c] [] (by simp) (by simp)]
      simpa using ih
    · rw [strReplace_cons_neg a s [c] []]
      · simpa [Ne.symm hca] using ih
      · intro hcon
        rw [List.prefix_cons_iff] at hcon
        rcases hcon with h | ⟨t, ht, _⟩
        · simp at h
        · injection ht with h1 _
          exact hca h1

theorem foldl_remove_eq_filter (l : Str) (name : Str) :
    l.foldl (fun acc c => strReplace acc [c] []) name =
      name.filter (fun c => decide (c ∉ l)) := by
  induction l generalizing name with
  | nil => simp
  | cons c cs ih =>
    rw [List.foldl_cons, ih, strReplace_singleton_nil, List.filter_filter]
    apply List.filter_congr
    intro x _
    by_cases hx : x = c <;> simp [hx]

/-- `sanitize_filename` is exactly: drop every invalid character (keeping
everything else in order), then strip surrounding whitespace. -/
theorem sanitize_filename_eq_filter (name : Str) :
    sanitize_filename name =
      pyStrip (name.filter (fun c => decide (c ∉ invalid_chars))) := by
  unfold sanitize_filename
  rw [foldl_remove_eq_filter]

theorem mem_pyStrip {c : Char} {s : Str} (h : c ∈ pyStrip s) : c ∈ s := by
  unfold pyStrip at h
  rw [List.mem_reverse] at h
  have h1 := (List.dropWhile_sublist (l := (s.dropWhile isSpace).reverse) (p := isSpace)).mem h
  rw [List.mem_reverse] at h1
  exact (List.dropWhile_sublist (l := s) (p := isSpace)).mem h1

theorem not_invalid_mem_sanitize {c : Char} {name : Str}
    (h : c ∈ sanitize_filename name) : c ∉ invalid_chars := by
  rw [sanitize_filename_eq_filter] at h
  have := mem_pyStrip h
  have := List.of_mem_filter this
  simpa using this

/-! ### Claim C1: filename sanitization and the "Unknown" fallback -/

/-- C1, counterexample.  The claim says an input consisting entirely of
invalid characters (e.g. `"???"`) yields the literal `"Unknown"` as the
filename's company component.  In the code the `"Unknown"` fallback tests
only truthiness of the raw company name, *before* sanitization, so `"???"`
(non-empty, hence truthy) sanitizes to the empty string and the component
is empty, not `"Unknown"`. -/
theorem companyComponent_eval (name : Str) (h : name ≠ []) :
    companyComponent name =
      pyStrip (name.filter (fun c => decide (c ∉ invalid_chars))) := by
  unfold companyComponent
  rw [if_neg h, sanitize_filename_eq_filter]

theorem companyComponent_qqq : companyComponent "???".data = [] := by
  rw [companyComponent_eval _ (by decide)]
  decide

theorem c1_counterexample :
    companyComponent "???".data = [] ∧
      companyComponent "???".data ≠ "Unknown".data := by
  refine ⟨companyComponent_qqq, ?_⟩
  rw [companyComponent_qqq]
  decide

/-- C1, amended.  Sanitization removes exactly the characters
`< > : " / \ | ? *` (keeping all others in order) and then trims
whitespace; the empty company name falls back to the literal `"Unknown"`;
but a non-empty name is always passed through `sanitize_filename`, so a
non-empty name consisting entirely of invalid characters yields the empty
component, not `"Unknown"`. -/
theorem c1_amended (name : Str) :
    sanitize_filename name =
        pyStrip (name.filter (fun c => decide (c ∉ invalid_chars))) ∧
      (∀ c ∈ sanitize_filename name, c ∉ invalid_chars) ∧
      companyComponent [] = "Unknown".data ∧
      (name ≠ [] → companyComponent name = sanitize_filename name) ∧
      companyComponent "???".data = [] := by
  refine ⟨sanitize_filename_eq_filter name, ?_, by decide, ?_,
    companyComponent_qqq⟩
  · intro c hc
    exact not_invalid_mem_sanitize hc
  · intro hne
    simp [companyComponent, hne]

/-- C1, witness for the amended theorem at a concrete input: sanitizing
`"Acme/Corp:Inc"` removes `/` and `:`, and a non-empty name is passed
through sanitization. -/
theorem c1_amended_witness :
    sanitize_filename "Acme/Corp:Inc".data = "AcmeCorpInc".data ∧
      ("Acme/Corp:Inc".data ≠ ([] : Str)) ∧
      companyComponent "Acme/Corp:Inc".data = sanitize_filename "Acme/Corp:Inc".data := by
  refine ⟨?_, by decide, ?_⟩
  · rw [(c1_amended "Acme/Corp:Inc".data).1]
    decide
  · exact (c1_amended "Acme/Corp:Inc".data).2.2.2.1 (by decide)

/-! ### Basic facts about `scanAux` -/

theorem scanAux_nil : scanAux [] = [] := by simp [scanAux]

theorem scanAux_cons_ne (c : Char) (rest : Str) (h : c ≠ '[') :
    scanAux (c :: rest) = scanAux rest := by
  rw [scanAux]
  rw [if_neg h]

theorem scanAux_open_pos (rest : Str)
    (h1 : rest.takeWhile (· ≠ ']') ≠ []) (h2 : rest.dropWhile (· ≠ ']') ≠ []) :
    scanAux ('[' :: rest) =
      rest.takeWhile (· ≠ ']') ::
        scanAux (rest.drop ((rest.takeWhile (· ≠ ']')).length + 1)) := by
  rw [scanAux]
  rw [if_pos rfl, if_pos ⟨h1, h2⟩]

theorem scanAux_open_neg (rest : Str)
    (h : ¬ (rest.takeWhile (· ≠ ']') ≠ [] ∧ rest.dropWhile (· ≠ ']') ≠ [])) :
    scanAux ('[' :: rest) = scanAux rest := by
  rw [scanAux]
  rw [if_pos rfl, if_neg h]

/-- Splitting a text at its first `']'`, when one exists. -/
theorem brkt_decomp {rest : Str} (h : rest.dropWhile (· ≠ ']') ≠ []) :
    rest = rest.takeWhile (· ≠ ']') ++ ']' :: (rest.dropWhile (· ≠ ']')).tail := by
  conv_lhs => rw [← List.takeWhile_append_dropWhile (p := (· ≠ ']')) (l := rest)]
  congr 1
  have h2 := List.head_dropWhile_not (fun x => decide (x ≠ ']')) rest h
  have h4 : (rest.dropWhile (· ≠ ']')).head h = ']' := by simpa using h2
  have h3 := List.head_cons_tail _ h
  rw [← h3, h4]
  simp

theorem tok_infix_of_decomp {γ d t : Str} (h : t = γ ++ ']' :: d) :
    tok γ <:+: '[' :: t := by
  refine ⟨[], d, ?_⟩
  simp [tok, h]

theorem infix_cons_lift {s t : Str} {c : Char} (h : s <:+: t) :
    s <:+: c :: t :=
  h.trans (List.infix_cons_iff.mpr (Or.inr (List.infix_refl t)))

/-- Soundness of the scanner: every reported name is non-empty, contains no
`']'`, and its bracketed token occurs in the text. -/
theorem scanAux_sound (t : Str) :
    ∀ n ∈ scanAux t, n ≠ [] ∧ ']' ∉ n ∧ tok n <:+: t := by
  induction t using scanAux.induct with
  | case1 => simp [scanAux_nil]
  | case2 rest name h ih =>
    rw [scanAux_open_pos rest h.1 h.2]
    intro n hn
    rcases List.mem_cons.mp hn with h0 | hn
    · subst h0
      refine ⟨h.1, ?_, ?_⟩
      · intro hc
        have := List.mem_takeWhile_imp hc
        simp at this
      · exact tok_infix_of_decomp (brkt_decomp h.2)
    · rcases ih n hn with ⟨hne, hnb, hinf⟩
      exact ⟨hne, hnb,
        infix_cons_lift (hinf.trans (List.drop_suffix _ _).isInfix)⟩
  | case3 rest name h ih =>
    rw [scanAux_open_neg rest h]
    intro n hn
    rcases ih n hn with ⟨hne, hnb, hinf⟩
    exact ⟨hne, hnb, infix_cons_lift hinf⟩
  | case4 c rest hc ih =>
    rw [scanAux_cons_ne c rest (fun h => hc h)]
    intro n hn
    rcases ih n hn with ⟨hne, hnb, hinf⟩
    exact ⟨hne, hnb, infix_cons_lift hinf⟩

/-- `takeWhile`/`dropWhile` at a `']'`-free prefix followed by `']'`. -/
theorem takeWhile_brkt (γ d : Str) (hnb : ']' ∉ γ) :
    (γ ++ ']' :: d).takeWhile (· ≠ ']') = γ ∧
      (γ ++ ']' :: d).dropWhile (· ≠ ']') = ']' :: d := by
  induction γ with
  | nil => simp
  | cons a γ ih =>
    have ha : a ≠ ']' := fun h => hnb (by simp [h])
    have := ih (fun h => hnb (List.mem_cons_of_mem a h))
    simp only [List.cons_append]
    constructor
    · rw [List.takeWhile_cons_of_pos (by simp [ha]), this.1]
    · rw [List.dropWhile_cons_of_pos (by simp [ha]), this.2]

theorem no_open_no_tok {t : Str} (h : '[' ∉ t) (γ : Str) : ¬ tok γ <:+: t :=
  fun hinf => h (hinf.sublist.mem (by simp [tok]))

/-- Completeness of the scanner: if a bracket token with a non-empty,
`']'`-free name occurs anywhere, the scanner reports at least one name. -/
theorem scanAux_complete {γ : Str} (hne : γ ≠ []) (hnb : ']' ∉ γ) (t : Str)
    (h : tok γ <:+: t) : scanAux t ≠ [] := by
  induction t using scanAux.induct with
  | case1 =>
    exfalso
    have := h.sublist.length_le
    simp [tok] at this
  | case2 rest name hc ih =>
    rw [scanAux_open_pos rest hc.1 hc.2]
    simp
  | case3 rest name hc ih =>
    rw [scanAux_open_neg rest hc]
    rcases List.infix_cons_iff.mp h with hpre | hinf
    · exfalso
      rw [tok] at hpre
      rw [List.cons_prefix_cons] at hpre
      rcases hpre.2 with ⟨d, hd⟩
      rw [List.append_assoc] at hd
      have hd' : rest = γ ++ ']' :: d := by
        rw [← hd]; simp
      have htw := takeWhile_brkt γ d hnb
      refine hc ⟨?_, ?_⟩
      · show rest.takeWhile (· ≠ ']') ≠ []
        rw [hd', htw.1]; exact hne
      · show rest.dropWhile (· ≠ ']') ≠ []
        rw [hd', htw.2]; simp
    · exact ih hinf
  | case4 c rest hc ih =>
    rw [scanAux_cons_ne c rest (fun h => hc h)]
    rcases List.infix_cons_iff.mp h with hpre | hinf
    · exfalso
      rw [tok] at hpre
      rw [List.cons_prefix_cons] at hpre
      exact hc hpre.1.symm
    · exact ih hinf

/-! ### Claim C3: the placeholder scanner -/

/-- C3.  `extract_placeholders` returns an alphabetically sorted list of
distinct placeholder names gathered from all top-level paragraphs and all
table-cell paragraphs; no name is empty, none contains `']'`, none repeats;
and a document with no bracketed substring at all yields the empty list. -/
theorem c3_extract_placeholders (doc : Document) :
    (extract_placeholders doc).Sorted (· ≤ ·) ∧
      (extract_placeholders doc).Nodup ∧
      (∀ n ∈ extract_placeholders doc, n ≠ [] ∧ ']' ∉ n) ∧
      ((∀ p ∈ allParas doc, ∀ γ : Str, ']' ∉ γ → ¬ tok γ <:+: paraText p) →
        extract_placeholders doc = []) := by
  refine ⟨List.sorted_insertionSort _ _, ?_, ?_, ?_⟩
  · exact ((List.perm_insertionSort _ _).nodup_iff).mpr (List.nodup_dedup _)
  · intro n hn
    unfold extract_placeholders at hn
    rw [List.Perm.mem_iff (List.perm_insertionSort _ _)] at hn
    rw [List.mem_dedup, List.mem_flatMap] at hn
    rcases hn with ⟨p, _, hmem⟩
    exact ⟨(scanAux_sound _ n hmem).1, (scanAux_sound _ n hmem).2.1⟩
  · intro hnone
    unfold extract_placeholders
    have hflat : (allParas doc).flatMap (fun p => scanAux (paraText p)) = [] := by
      rw [List.flatMap_eq_nil_iff]
      intro p hp
      rcases hsc : scanAux (paraText p) with _ | ⟨n, ns⟩
      · rfl
      · exfalso
        have hs := scanAux_sound (paraText p) n (by rw [hsc]; simp)
        exact hnone p hp n hs.2.1 hs.2.2
    rw [hflat]
    simp

/-- C3, witness: a concrete document exercising both the paragraph and the
table traversal, plus the empty case on a bracket-free document. -/
theorem c3_extract_placeholders_witness :
    extract_placeholders
        ⟨[["Dear [Name], ".data, "sincerely [Date]".data]],
          [[[[["cell [Alpha]".data]]]]]⟩ =
      ["Alpha".data, "Date".data, "Name".data] ∧
      extract_placeholders ⟨[["hello".data]], []⟩ = [] := by
  constructor
  · unfold extract_placeholders allParas paraText
    simp [scanAux]
    decide
  · exact (c3_extract_placeholders ⟨[["hello".data]], []⟩).2.2.2
      (by
        intro p hp γ hγ
        simp [allParas] at hp
        subst hp
        exact no_open_no_tok (by decide) γ)

/-! ### Claim C8: the value collector -/

theorem promptAux_map_fst (today : Str) (inputs : Nat → Str) :
    ∀ (ph : List Str) (idx : Nat),
      (promptAux today inputs ph idx).map Prod.fst = ph := by
  intro ph
  induction ph with
  | nil => intro idx; simp [promptAux]
  | cons q ps ih =>
    intro idx
    by_cases hd : isDateName q
    · simp [promptAux, hd, ih]
    · simp [promptAux, hd, ih]

theorem promptAux_get (today : Str) (inputs : Nat → Str) :
    ∀ (ph : List Str) (idx i : Nat) (p : Str), ph[i]? = some p →
      (promptAux today inputs ph idx)[i]? =
        some (p, if isDateName p then today
          else pyStrip (inputs (idx + (ph.take i).countP (fun q => !isDateName q)))) := by
  intro ph
  induction ph with
  | nil => intro idx i p hp; simp at hp
  | cons q ps ih =>
    intro idx i p hp
    cases i with
    | zero =>
      simp only [List.getElem?_cons_zero, Option.some.injEq] at hp
      subst hp
      by_cases hd : isDateName q
      · simp [promptAux, hd]
      · simp [promptAux, hd]
    | succ i =>
      simp only [List.getElem?_cons_succ] at hp
      by_cases hd : isDateName q
      · rw [promptAux, if_pos hd]
        rw [List.getElem?_cons_succ]
        rw [ih idx i p hp]
        have harg : (List.take (i + 1) (q :: ps)).countP (fun r => !isDateName r) =
            (List.take i ps).countP (fun r => !isDateName r) := by
          rw [List.take_succ_cons, List.countP_cons]
          simp [hd]
        rw [harg]
      · rw [promptAux, if_neg hd]
        rw [List.getElem?_cons_succ]
        rw [ih (idx + 1) i p hp]
        have harg : idx + (List.take (i + 1) (q :: ps)).countP (fun r => !isDateName r) =
            idx + 1 + (List.take i ps).countP (fun r => !isDateName r) := by
          rw [List.take_succ_cons, List.countP_cons]
          simp [hd]
          omega
        rw [harg]

/-- C8.  For every placeholder list, the collector returns one pair per
name in order (so, a mapping covering every name exactly once when the
names are distinct, as the sorted scan output guarantees); a name that
case-insensitively equals "date" receives the date string and consumes no
interactive input; every other name receives the next raw input trimmed of
surrounding whitespace — the prompt index of the name at position `i` is
the number of non-date names before `i`, so date names are never prompted.
The empty string is a permitted trimmed value. -/
theorem c8_prompt_for_values (placeholders : List Str) (today : Str)
    (inputs : Nat → Str) (hnd : placeholders.Nodup) :
    ((prompt_for_values today inputs placeholders).map Prod.fst = placeholders) ∧
      ((prompt_for_values today inputs placeholders).map Prod.fst).Nodup ∧
      (∀ (i : Nat) (p : Str), placeholders[i]? = some p →
        (prompt_for_values today inputs placeholders)[i]? =
          some (p, if isDateName p then today
            else pyStrip (inputs ((placeholders.take i).countP
              (fun q => !isDateName q))))) := by
  unfold prompt_for_values
  refine ⟨promptAux_map_fst today inputs placeholders 0, ?_, ?_⟩
  · rw [promptAux_map_fst today inputs placeholders 0]
    exact hnd
  · intro i p hp
    have := promptAux_get today inputs placeholders 0 i p hp
    simpa using this

/-- C8, witness: three placeholders; `"DATE"` is auto-filled and consumes
no input, `"Company"` gets the first prompt trimmed, `"Name"` gets the
second prompt, which is empty and accepted. -/
theorem c8_prompt_for_values_witness :
    (prompt_for_values "2024-01-01".data
        (fun n => if n = 0 then " Acme ".data else [])
        ["Company".data, "DATE".data, "Name".data])[0]? =
      some ("Company".data, "Acme".data) ∧
      (prompt_for_values "2024-01-01".data
          (fun n => if n = 0 then " Acme ".data else [])
          ["Company".data, "DATE".data, "Name".data])[1]? =
        some ("DATE".data, "2024-01-01".data) ∧
      (prompt_for_values "2024-01-01".data
          (fun n => if n = 0 then " Acme ".data else [])
          ["Company".data, "DATE".data, "Name".data])[2]? =
        some ("Name".data, []) := by
  have h := c8_prompt_for_values
    ["Company".data, "DATE".data, "Name".data] "2024-01-01".data
    (fun n => if n = 0 then " Acme ".data else []) (by decide)
  refine ⟨?_, ?_, ?_⟩
  · have h0 := h.2.2 0 "Company".data (by decide)
    rw [h0]
    decide
  · have h1 := h.2.2 1 "DATE".data (by decide)
    rw [h1]
    decide
  · have h2 := h.2.2 2 "Name".data (by decide)
    rw [h2]
    decide

/-! ### Claim C10: deriving the company name for the filename -/

/-- C10.  The company string passed to the export step is obtained by
trying, in order, the keys "Company Name", "Company", "Employer", taking
the first whose value is present and non-empty; when none qualifies it is
the empty string, and the filename's company component then falls back to
"Unknown". -/
theorem c10_company_name (values : List (Str × Str)) :
    (∀ v, dictGet values "Company Name".data = some v → v ≠ [] →
        companyOf values = v) ∧
      ((dictGet values "Company Name".data = none ∨
          dictGet values "Company Name".data = some []) →
        ∀ v, dictGet values "Company".data = some v → v ≠ [] →
          companyOf values = v) ∧
      ((dictGet values "Company Name".data = none ∨
          dictGet values "Company Name".data = some []) →
        (dictGet values "Company".data = none ∨
          dictGet values "Company".data = some []) →
        ∀ v, dictGet values "Employer".data = some v → v ≠ [] →
          companyOf values = v) ∧
      ((dictGet values "Company Name".data = none ∨
          dictGet values "Company Name".data = some []) →
        (dictGet values "Company".data = none ∨
          dictGet values "Company".data = some []) →
        (dictGet values "Employer".data = none ∨
          dictGet values "Employer".data = some []) →
        companyOf values = [] ∧
          companyComponent (companyOf values) = "Unknown".data) := by
  refine ⟨?_, ?_, ?_, ?_⟩
  · intro v hv hne
    unfold companyOf
    rw [hv, pyOrElse, if_neg hne]
  · rintro (h1 | h1) v hv hne
    · unfold companyOf
      rw [h1, hv]
      show pyOrElse (some v) _ = v
      rw [pyOrElse, if_neg hne]
    · unfold companyOf
      rw [h1, hv]
      show pyOrElse (some []) _ = v
      rw [pyOrElse, if_pos rfl]
      show pyOrElse (some v) _ = v
      rw [pyOrElse, if_neg hne]
  · rintro (h1 | h1) (h2 | h2) v hv hne <;>
      · unfold companyOf
        rw [h1, h2, hv]
        show pyOrElse (some v) _ = v
        rw [pyOrElse, if_neg hne]
  · rintro (h1 | h1) (h2 | h2) (h3 | h3) <;>
      · constructor
        · unfold companyOf
          rw [h1, h2, h3]
          simp [pyOrElse]
        · unfold companyOf
          rw [h1, h2, h3]
          simp only [pyOrElse]
          norm_num
          decide

/-- C10, witness: "Company Name" is present but empty, so the next key
"Company" supplies the name. -/
theorem c10_company_name_witness :
    companyOf [("Company Name".data, []), ("Company".data, "Zeus".data)] =
      "Zeus".data := by
  exact (c10_company_name _).2.1 (Or.inr (by decide)) "Zeus".data
    (by decide) (by decide)

/-! ### Claim C4: the full-paragraph-scan short circuit -/

theorem strReplace_eq_self_of_absent {t pat : Str} (v : Str) (h : ¬ pat <:+: t) :
    strReplace t pat v = t := by
  induction t with
  | nil => exact strReplace_nil pat v
  | cons c s ih =>
    rw [strReplace_cons_neg c s pat v (fun hp => h hp.isInfix)]
    rw [ih (fun hi => h (infix_cons_lift hi))]

theorem infix_flatten_of_mem {r : Str} {rs : List Str} (h : r ∈ rs) :
    r <:+: rs.flatten := by
  induction rs with
  | nil => simp at h
  | cons a rs ih =>
    rw [List.flatten_cons]
    rcases List.mem_cons.mp h with h0 | h0
    · subst h0
      exact (List.prefix_append r rs.flatten).isInfix
    · exact (ih h0).trans (List.suffix_append a rs.flatten).isInfix

theorem map_id_of_mem {α : Type} {l : List α} {f : α → α}
    (h : ∀ x ∈ l, f x = x) : l.map f = l := by
  induction l with
  | nil => rfl
  | cons a l ih =>
    simp only [List.map_cons]
    rw [h a (List.mem_cons_self a l), ih (fun x hx => h x (List.mem_cons_of_mem a hx))]

theorem replaceRun_id {t : Str} {values : List (Str × Str)}
    (h : ∀ kv ∈ values, ¬ tok kv.1 <:+: t) : replaceRun values t = t := by
  unfold replaceRun
  induction values with
  | nil => rfl
  | cons kv kvs ih =>
    rw [List.foldl_cons]
    rw [if_neg (show ¬ containsTok t (tok kv.1) from h kv (List.mem_cons_self kv kvs))]
    exact ih (fun kv' h' => h kv' (List.mem_cons_of_mem kv h'))

/-- When the full-paragraph regex scan finds nothing, no bracket token of
any legal placeholder name occurs in any individual run either. -/
theorem no_match_no_run_tok {p : Para} (hscan : scanAux (paraText p) = [])
    {k : Str} (hne : k ≠ []) (hnb : ']' ∉ k) {r : Str} (hr : r ∈ p) :
    ¬ tok k <:+: r := by
  intro hinf
  exact scanAux_complete hne hnb (paraText p)
    (hinf.trans (infix_flatten_of_mem hr)) hscan

/-- C4.  The short circuit of `replace_in_paragraph` — skipping the
paragraph when the regex finds no bracket pattern in the concatenated
text — never changes the result: for every paragraph and every Value Set
(whose names are, per the data model, non-empty and `']'`-free), the
guarded function agrees with unconditionally running the per-run
replacement loop. -/
theorem c4_short_circuit (p : Para) (values : List (Str × Str))
    (hkeys : ∀ kv ∈ values, kv.1 ≠ [] ∧ ']' ∉ kv.1) :
    replace_in_paragraph p values = p.map (replaceRun values) := by
  unfold replace_in_paragraph
  split
  · next hscan =>
    have : ∀ r ∈ p, replaceRun values r = r := by
      intro r hr
      exact replaceRun_id (fun kv hkv =>
        no_match_no_run_tok hscan (hkeys kv hkv).1 (hkeys kv hkv).2 hr)
    symm
    exact map_id_of_mem this
  · rfl

/-- C4, witness: a bracket-free paragraph is skipped, and the unconditional
loop also leaves it unchanged. -/
theorem c4_short_circuit_witness :
    replace_in_paragraph ["hello world".data]
        [("Name".data, "Peter".data)] =
      ["hello world".data].map (replaceRun [("Name".data, "Peter".data)]) :=
  c4_short_circuit ["hello world".data] [("Name".data, "Peter".data)]
    (by decide)

/-! ### Claims C5, C6, C7: the export pipeline -/

/-- C6.  On every exit path of `save_as_pdf` — success, non-zero converter
exit, missing converter output, or an exception raised inside the `try`
body — the temporary `.docx` no longer exists afterwards (the `finally`
block removes it). -/
theorem c6_temp_deleted (outputs : List Str) (company_name date_str tempStem : Str)
    (ev : ConvEvent) :
    (save_as_pdf outputs company_name date_str tempStem ev).tempExists = false := by
  unfold save_as_pdf
  cases ev with
  | raise => rfl
  | run rc produced =>
    dsimp only
    repeat' split
    all_goals rfl

theorem decVal_natToDec (n : Nat) : decVal (natToDec n) = n := by
  have hdig : ∀ m : Nat, m < 10 → digitVal (decDigit m) = m := by
    intro m hm
    interval_cases m <;> rfl
  induction n using natToDec.induct with
  | case1 n h =>
    rw [natToDec, dif_pos h]
    show 10 * 0 + digitVal (decDigit n) = n
    rw [hdig n h]
    omega
  | case2 n h ih =>
    rw [natToDec, dif_neg h]
    unfold decVal
    rw [List.foldl_append]
    show 10 * decVal (natToDec (n / 10)) + digitVal (decDigit (n % 10)) = n
    rw [ih, hdig (n % 10) (Nat.mod_lt n (by norm_num))]
    omega

theorem natToDec_inj {m n : Nat} (h : natToDec m = natToDec n) : m = n := by
  have := congrArg decVal h
  rwa [decVal_natToDec, decVal_natToDec] at this

theorem pdfNumberedName_inj {safe date : Str} {m n : Nat}
    (h : pdfNumberedName safe date m = pdfNumberedName safe date n) : m = n := by
  unfold pdfNumberedName at h
  repeat rw [List.append_assoc] at h
  have h1 := List.append_cancel_left h
  have h2 := List.append_cancel_left h1
  have h3 := List.append_cancel_left h2
  have h4 := List.append_cancel_left h3
  have h5 := List.append_cancel_left h4
  exact natToDec_inj (List.append_cancel_right h5)

/-- Pigeonhole: scanning `outputs.length + 1` consecutive counters from any
start always reaches a name not present in `outputs`. -/
theorem exists_free_counter (outputs : List Str) (safe date : Str) (k : Nat) :
    ∃ j, k ≤ j ∧ j < k + (outputs.length + 1) ∧
      pdfNumberedName safe date j ∉ outputs := by
  by_contra hall
  push_neg at hall
  set fuel := outputs.length + 1 with hfuel
  have hmem : ∀ i < fuel, pdfNumberedName safe date (k + i) ∈ outputs := by
    intro i hi
    exact hall (k + i) (Nat.le_add_right k i) (by omega)
  set L := (List.range fuel).map (fun i => pdfNumberedName safe date (k + i)) with hL
  have hnd : L.Nodup := by
    refine List.Nodup.map ?_ (List.nodup_range fuel)
    intro a b hab
    have := pdfNumberedName_inj hab
    omega
  have hsub : L.toFinset ⊆ outputs.toFinset := by
    intro x hx
    rw [List.mem_toFinset] at hx ⊢
    rw [hL, List.mem_map] at hx
    rcases hx with ⟨i, hi, rfl⟩
    exact hmem i (List.mem_range.mp hi)
  have hcard1 : L.toFinset.card = fuel := by
    rw [List.toFinset_card_of_nodup hnd, hL, List.length_map, List.length_range]
  have hcard2 := Finset.card_le_card hsub
  have hcard3 := List.toFinset_card_le outputs
  omega

/-- The collision loop with enough fuel returns the least free counter. -/
theorem findFreeCounter_least (outputs : List Str) (safe date : Str) :
    ∀ (fuel k : Nat),
      (∃ j, k ≤ j ∧ j < k + fuel ∧ pdfNumberedName safe date j ∉ outputs) →
      k ≤ findFreeCounter outputs safe date fuel k ∧
        pdfNumberedName safe date (findFreeCounter outputs safe date fuel k) ∉
          outputs ∧
        ∀ j, k ≤ j → j < findFreeCounter outputs safe date fuel k →
          pdfNumberedName safe date j ∈ outputs := by
  intro fuel
  induction fuel with
  | zero =>
    intro k ⟨j, hj1, hj2, _⟩
    omega
  | succ fuel ih =>
    intro k hex
    by_cases hk : pdfNumberedName safe date k ∈ outputs
    · have hex' : ∃ j, k + 1 ≤ j ∧ j < (k + 1) + fuel ∧
          pdfNumberedName safe date j ∉ outputs := by
        rcases hex with ⟨j, hj1, hj2, hj3⟩
        refine ⟨j, ?_, by omega, hj3⟩
        rcases Nat.eq_or_lt_of_le hj1 with rfl | h
        · exact absurd hk hj3
        · omega
      have ihr := ih (k + 1) hex'
      rw [findFreeCounter, if_pos hk]
      refine ⟨Nat.le_of_succ_le ihr.1, ihr.2.1, ?_⟩
      intro j hj1 hj2
      rcases Nat.eq_or_lt_of_le hj1 with rfl | h
      · exact hk
      · exact ihr.2.2 j h hj2
    · rw [findFreeCounter, if_neg hk]
      exact ⟨Nat.le_refl k, hk, fun j h1 h2 => absurd h1 (by omega)⟩

/-- C5.  When the candidate name already exists, the export renames the
converter output to `CoverLetter_<Safe>_<Date>_<m>.pdf` where `m ≥ 1` is
the least counter whose name is absent, every smaller counter's name being
present; the chosen name is not a pre-existing artifact and the final
directory keeps every pre-existing file, so nothing is overwritten. -/
theorem c5_collision_numbering (outputs : List Str)
    (company_name date_str tempStem : Str)
    (hfresh : tempStem ++ ".pdf".data ∉ outputs)
    (hnn : ∀ k, tempStem ++ ".pdf".data ≠
      pdfNumberedName (companyComponent company_name) date_str k)
    (hcand : pdfBaseName (companyComponent company_name) date_str ∈ outputs) :
    ∃ m, 1 ≤ m ∧
      (save_as_pdf outputs company_name date_str tempStem (.run 0 true)).result =
        .ok (some (pdfNumberedName (companyComponent company_name) date_str m)) ∧
      pdfNumberedName (companyComponent company_name) date_str m ∉ outputs ∧
      (∀ j, 1 ≤ j → j < m →
        pdfNumberedName (companyComponent company_name) date_str j ∈ outputs) ∧
      (save_as_pdf outputs company_name date_str tempStem (.run 0 true)).outputs =
        outputs ++ [pdfNumberedName (companyComponent company_name) date_str m] := by
  have hcand1 : pdfBaseName (companyComponent company_name) date_str ∈
      outputs ++ [tempStem ++ ".pdf".data] := List.mem_append_left _ hcand
  have htmem : tempStem ++ ".pdf".data ∈
      outputs ++ [tempStem ++ ".pdf".data] := by simp
  have hex := exists_free_counter (outputs ++ [tempStem ++ ".pdf".data])
    (companyComponent company_name) date_str 1
  have hleast := findFreeCounter_least (outputs ++ [tempStem ++ ".pdf".data])
    (companyComponent company_name) date_str
    ((outputs ++ [tempStem ++ ".pdf".data]).length + 1) 1 hex
  have houts : (save_as_pdf outputs company_name date_str tempStem
      (.run 0 true)) =
      ⟨.ok (some (pdfNumberedName (companyComponent company_name) date_str
          (findFreeCounter (outputs ++ [tempStem ++ ".pdf".data])
            (companyComponent company_name) date_str
            ((outputs ++ [tempStem ++ ".pdf".data]).length + 1) 1))),
        (outputs ++ [tempStem ++ ".pdf".data]).erase (tempStem ++ ".pdf".data) ++
          [pdfNumberedName (companyComponent company_name) date_str
            (findFreeCounter (outputs ++ [tempStem ++ ".pdf".data])
              (companyComponent company_name) date_str
              ((outputs ++ [tempStem ++ ".pdf".data]).length + 1) 1)],
        false⟩ := by
    unfold save_as_pdf
    dsimp only
    rw [if_pos rfl]
    rw [if_neg (by norm_num : ¬ ((0 : Int) ≠ 0))]
    rw [if_pos hcand1, if_pos htmem]
  have hnotin : pdfNumberedName (companyComponent company_name) date_str
      (findFreeCounter (outputs ++ [tempStem ++ ".pdf".data])
        (companyComponent company_name) date_str
        ((outputs ++ [tempStem ++ ".pdf".data]).length + 1) 1) ∉ outputs := by
    intro hcon
    exact hleast.2.1 (List.mem_append_left _ hcon)
  refine ⟨findFreeCounter (outputs ++ [tempStem ++ ".pdf".data])
    (companyComponent company_name) date_str
    ((outputs ++ [tempStem ++ ".pdf".data]).length + 1) 1,
    hleast.1, ?_, hnotin, ?_, ?_⟩
  · rw [houts]
  · intro j hj1 hj2
    have hj := hleast.2.2 j hj1 hj2
    rcases List.mem_append.mp hj with h | h
    · exact h
    · simp at h
      exact absurd h.symm (hnn j)
  · rw [houts]
    dsimp only
    congr 1
    rw [List.erase_append_right _ hfresh]
    simp

/-- C5, witness: with exactly `CoverLetter_Acme_2024-01-01.pdf` present, a
second export with the same company and date produces
`CoverLetter_Acme_2024-01-01_1.pdf` and keeps the existing artifact. -/
theorem c5_collision_numbering_witness :
    (save_as_pdf ["CoverLetter_Acme_2024-01-01.pdf".data]
        "Acme".data "2024-01-01".data "tmp7".data (.run 0 true)).result =
      .ok (some "CoverLetter_Acme_2024-01-01_1.pdf".data) ∧
      (save_as_pdf ["CoverLetter_Acme_2024-01-01.pdf".data]
          "Acme".data "2024-01-01".data "tmp7".data (.run 0 true)).outputs =
        ["CoverLetter_Acme_2024-01-01.pdf".data,
          "CoverLetter_Acme_2024-01-01_1.pdf".data] := by
  have hsafe : companyComponent "Acme".data = "Acme".data := by
    rw [companyComponent_eval _ (by decide)]
    decide
  have hnum : ∀ k, ("tmp7".data ++ ".pdf".data : Str) ≠
      pdfNumberedName (companyComponent "Acme".data) "2024-01-01".data k := by
    intro k h
    unfold pdfNumberedName at h
    have := congrArg (fun l => l[0]?) h
    simp at this
  have h := c5_collision_numbering ["CoverLetter_Acme_2024-01-01.pdf".data]
    "Acme".data "2024-01-01".data "tmp7".data
    (by decide) hnum (by rw [hsafe]; unfold pdfBaseName; decide)
  rcases h with ⟨m, hm1, hres, hnotin, hsmall, houts⟩
  have hm : m = 1 := by
    by_contra hne
    have h1 := hsmall 1 (by omega) (by omega)
    rw [hsafe] at h1
    have : pdfNumberedName "Acme".data "2024-01-01".data 1 =
        "CoverLetter_Acme_2024-01-01_1.pdf".data := by
      unfold pdfNumberedName
      rw [show natToDec 1 = ['1'] by rw [natToDec]; rfl]
      decide
    rw [this] at h1
    simp at h1
  subst hm
  have hname : pdfNumberedName (companyComponent "Acme".data) "2024-01-01".data 1 =
      "CoverLetter_Acme_2024-01-01_1.pdf".data := by
    rw [hsafe]
    unfold pdfNumberedName
    rw [show natToDec 1 = ['1'] by rw [natToDec]; rfl]
    decide
  rw [hname] at hres houts
  exact ⟨hres, by rw [houts]; decide⟩

/-- C7.  With converter events as the observable interface, the export
returns no artifact exactly when the converter exits non-zero or the
expected output `<temp stem>.pdf` is absent from the output directory
afterwards; and in every such failure the directory is left exactly as the
converter left it — nothing is renamed. -/
theorem c7_failure_conditions (outputs : List Str)
    (company_name date_str tempStem : Str) (rc : Int) (produced : Bool)
    (houts1 : outputs1 = (if produced
      then outputs ++ [tempStem ++ ".pdf".data] else outputs)) :
    ((save_as_pdf outputs company_name date_str tempStem
        (.run rc produced)).result = .ok none ↔
      (rc ≠ 0 ∨ tempStem ++ ".pdf".data ∉ outputs1)) ∧
    ((save_as_pdf outputs company_name date_str tempStem
        (.run rc produced)).result = .ok none →
      (save_as_pdf outputs company_name date_str tempStem
        (.run rc produced)).outputs = outputs1) := by
  subst houts1
  unfold save_as_pdf
  dsimp only
  by_cases hrc : rc ≠ 0
  · rw [if_pos hrc]
    exact ⟨⟨fun _ => Or.inl hrc, fun _ => rfl⟩, fun _ => rfl⟩
  · rw [if_neg hrc]
    push_neg at hrc
    by_cases htm : tempStem ++ ".pdf".data ∈
        (if produced then outputs ++ [tempStem ++ ".pdf".data] else outputs)
    · rw [if_pos htm]
      constructor
      · constructor
        · intro hcon
          simp at hcon
        · rintro (h | h)
          · exact absurd hrc h
          · exact absurd htm h
      · intro hcon
        simp at hcon
    · rw [if_neg htm]
      exact ⟨⟨fun _ => Or.inr htm, fun _ => rfl⟩, fun _ => rfl⟩

/-- C7, witness: converter exit code 1 (with a stale product present)
returns no artifact and renames nothing; a missing product with exit code
0 likewise. -/
theorem c7_failure_conditions_witness :
    ((save_as_pdf ["a.pdf".data] "Acme".data "2024-01-01".data "tmp7".data
        (.run 1 true)).result = .ok none ∨ (1 : Int) = 0) ∧
      ((save_as_pdf ["a.pdf".data] "Acme".data "2024-01-01".data "tmp7".data
          (.run 0 false)).result = .ok none ↔
        ((0 : Int) ≠ 0 ∨ ("tmp7".data ++ ".pdf".data : Str) ∉ ["a.pdf".data])) := by
  constructor
  · left
    have h := c7_failure_conditions ["a.pdf".data] "Acme".data
      "2024-01-01".data "tmp7".data 1 true rfl
    exact h.1.mpr (Or.inl (by norm_num))
  · have h := c7_failure_conditions ["a.pdf".data] "Acme".data
      "2024-01-01".data "tmp7".data 0 false rfl
    simpa using h.1

/-! ### Positional occurrences -/

theorem infix_iff_exists_occ {t pat : Str} : pat <:+: t ↔ ∃ i, Occ t pat i := by
  constructor
  · rintro ⟨pre, suf, hps⟩
    refine ⟨pre.length, ?_⟩
    unfold Occ
    rw [← hps, List.append_assoc, List.drop_left]
    exact List.prefix_append pat suf
  · rintro ⟨i, h⟩
    rcases h with ⟨rest, hrest⟩
    refine ⟨t.take i, rest, ?_⟩
    rw [List.append_assoc, hrest, List.take_append_drop]

theorem occ_append_right {A B pat : Str} {i : Nat} (h : Occ B pat i) :
    Occ (A ++ B) pat (A.length + i) := by
  unfold Occ at h ⊢
  rw [← List.drop_drop, List.drop_left]
  exact h

theorem occ_append_left {A B pat : Str} {i : Nat}
    (hi : i + pat.length ≤ A.length) (h : Occ (A ++ B) pat i) : Occ A pat i := by
  unfold Occ at h ⊢
  rw [List.drop_append_of_le_length (by omega)] at h
  rw [List.prefix_iff_eq_take] at h ⊢
  rw [List.take_append_of_le_length (by simp; omega)] at h
  exact h

theorem occ_in_right {A B pat : Str} {i : Nat} (hi : A.length ≤ i)
    (h : Occ (A ++ B) pat i) : Occ B pat (i - A.length) := by
  unfold Occ at h ⊢
  have : i = A.length + (i - A.length) := by omega
  rw [this, ← List.drop_drop, List.drop_left] at h
  exact h

theorem occ_split {A B pat : Str} {i : Nat} (h : Occ (A ++ B) pat i)
    (h1 : i < A.length) (h2 : A.length < i + pat.length) :
    A.drop i = pat.take (A.length - i) ∧
      pat.drop (A.length - i) <+: B := by
  unfold Occ at h
  rw [List.drop_append_of_le_length (by omega)] at h
  have hlen : (A.drop i).length = A.length - i := by simp
  have hpref : A.drop i <+: pat := by
    refine List.prefix_of_prefix_length_le (List.prefix_append _ _) h ?_
    rw [hlen]
    have := h.length_le
    simp at this
    omega
  have htake : A.drop i = pat.take (A.length - i) := by
    rw [List.prefix_iff_eq_take] at hpref
    rw [hpref, hlen]
  refine ⟨htake, ?_⟩
  rcases h with ⟨w, hw⟩
  have hsplit : pat = A.drop i ++ pat.drop (A.length - i) := by
    rw [htake]
    exact (List.take_append_drop _ pat).symm
  rw [hsplit, List.append_assoc] at hw
  have := List.append_cancel_left hw
  exact ⟨w, this⟩

theorem occ_length {t pat : Str} {i : Nat} (hne : pat ≠ []) (h : Occ t pat i) :
    i + pat.length ≤ t.length := by
  have hl := h.length_le
  simp only [List.length_drop] at hl
  have hp : 0 < pat.length := List.length_pos.mpr hne
  omega

/-! ### Structure of `strReplace` output -/

theorem mem_strReplace {c : Char} :
    ∀ (t pat v : Str), c ∈ strReplace t pat v → c ∈ t ∨ c ∈ v := by
  intro t pat v
  induction t, pat, v using strReplace.induct with
  | case1 pat v =>
    intro h
    rw [strReplace_nil] at h
    simp at h
  | case2 pat v d s' hcond ih =>
    intro h
    rw [strReplace_cons_pos d s' pat v hcond.1
      (List.isPrefixOf_iff_prefix.mp hcond.2)] at h
    rcases List.mem_append.mp h with h | h
    · exact Or.inr h
    · rcases ih h with h | h
      · exact Or.inl ((List.drop_sublist _ _).mem h)
      · exact Or.inr h
  | case3 pat v d s' hcond ih =>
    intro h
    have heq : strReplace (d :: s') pat v = d :: strReplace s' pat v := by
      rw [strReplace]
      rw [if_neg hcond]
    rw [heq] at h
    rcases List.mem_cons.mp h with h | h
    · exact Or.inl (h ▸ List.mem_cons_self d s')
    · rcases ih h with h | h
      · exact Or.inl (List.mem_cons_of_mem d h)
      · exact Or.inr h

/-- Splitting an infix of an append. -/
theorem infix_append_cases {s A B : Str} (h : s <:+: A ++ B) :
    s <:+: A ∨ s <:+: B ∨
      ∃ m, 0 < m ∧ m < s.length ∧ s.take m <:+ A ∧ s.drop m <+: B := by
  rcases infix_iff_exists_occ.mp h with ⟨i, hocc⟩
  by_cases h1 : i + s.length ≤ A.length
  · exact Or.inl (infix_iff_exists_occ.mpr ⟨i, occ_append_left h1 hocc⟩)
  · by_cases h2 : A.length ≤ i
    · exact Or.inr (Or.inl (infix_iff_exists_occ.mpr ⟨i - A.length, occ_in_right h2 hocc⟩))
    · push_neg at h1 h2
      have hsp := occ_split hocc h2 h1
      refine Or.inr (Or.inr ⟨A.length - i, by omega, by omega, ?_, hsp.2⟩)
      rw [← hsp.1]
      exact List.drop_suffix i A

/-- Splitting an append equal to `a ++ x :: b` at the position of `x`. -/
theorem append_eq_append_cons {A B a b : Str} {x : Char}
    (h : A ++ B = a ++ x :: b) :
    (∃ a₂, A = a ++ x :: a₂ ∧ b = a₂ ++ B) ∨
      (∃ b₁, a = A ++ b₁ ∧ B = b₁ ++ x :: b) := by
  by_cases hl : a.length < A.length
  · left
    have hdrop : A.drop a.length ++ B = x :: b := by
      have := congrArg (List.drop a.length) h
      rw [List.drop_append_of_le_length (by omega), List.drop_left] at this
      exact this
    rcases hA : A.drop a.length with _ | ⟨y, w⟩
    · exfalso
      have : A.length - a.length = 0 := by
        have := congrArg List.length hA
        simp at this
        omega
      omega
    · rw [hA] at hdrop
      simp only [List.cons_append] at hdrop
      injection hdrop with h1 h2
      have ha : a = A.take a.length := by
        have hc := congrArg (List.take a.length) h
        rw [List.take_append_of_le_length (by omega),
          List.take_append_of_le_length (le_refl _)] at hc
        simpa using hc.symm
      refine ⟨w, ?_, h2.symm⟩
      rw [ha, ← h1, ← hA, List.take_append_drop]
  · right
    push_neg at hl
    refine ⟨a.drop A.length, ?_, ?_⟩
    · have h1 : A <+: a ++ x :: b := h ▸ List.prefix_append A B
      have hpre : A <+: a :=
        List.prefix_of_prefix_length_le h1 (List.prefix_append a (x :: b)) hl
      rcases hpre with ⟨w, hw⟩
      rw [← hw, List.drop_left]
    · have hc := congrArg (List.drop A.length) h
      rw [List.drop_left, List.drop_append_of_le_length hl] at hc
      exact hc

/-- If the region before the first `']'` of `t` has no `'['`, then a
`']'`-closed prefix of the replaced text was already a prefix of `t`:
replacement (whose pattern starts with `'['`) cannot manufacture it. -/
theorem aux_head_transfer :
    ∀ (t pat v : Str), (∃ p', pat = '[' :: p') →
      '[' ∉ t.takeWhile (· ≠ ']') →
      ∀ γ : Str, ']' ∉ γ → γ ++ [']'] <+: strReplace t pat v →
      γ ++ [']'] <+: t := by
  intro t pat v
  induction t, pat, v using strReplace.induct with
  | case1 pat v =>
    intro hshape hclean γ hγ hpre
    rw [strReplace_nil] at hpre
    have := hpre.length_le
    simp at this
  | case2 pat v c s' hcond ih =>
    intro hshape hclean γ hγ hpre
    exfalso
    rcases hshape with ⟨p', rfl⟩
    have hp := List.isPrefixOf_iff_prefix.mp hcond.2
    rw [List.cons_prefix_cons] at hp
    have hc : c = '[' := hp.1.symm
    subst hc
    apply hclean
    rw [List.takeWhile_cons_of_pos (by simp)]
    exact List.mem_cons_self _ _
  | case3 pat v c s' hcond ih =>
    intro hshape hclean γ hγ hpre
    have heq : strReplace (c :: s') pat v = c :: strReplace s' pat v := by
      rw [strReplace]; rw [if_neg hcond]
    rw [heq] at hpre
    cases γ with
    | nil =>
      simp only [List.nil_append] at hpre ⊢
      rw [List.cons_prefix_cons] at hpre
      exact List.cons_prefix_cons.mpr ⟨hpre.1, List.nil_prefix⟩
    | cons a γ' =>
      simp only [List.cons_append] at hpre ⊢
      rw [List.cons_prefix_cons] at hpre
      have ha : a = c := hpre.1
      have hane : a ≠ ']' := fun hh => hγ (by simp [hh])
      have hcne : c ≠ ']' := ha ▸ hane
      have hclean' : '[' ∉ s'.takeWhile (· ≠ ']') := by
        intro hmem
        apply hclean
        rw [List.takeWhile_cons_of_pos (by simp [hcne])]
        exact List.mem_cons_of_mem _ hmem
      have hγ' : ']' ∉ γ' := fun hh => hγ (List.mem_cons_of_mem a hh)
      exact List.cons_prefix_cons.mpr ⟨ha, ih hshape hclean' γ' hγ' hpre.2⟩

/-- If the replaced text has no `']'` and `t`'s pre-`']'` region is clean,
the pattern never occurred in `t` at all. -/
theorem no_pat_of_no_close :
    ∀ (t pat v : Str), (∃ p', pat = '[' :: p') →
      '[' ∉ t.takeWhile (· ≠ ']') →
      ']' ∉ strReplace t pat v → ¬ pat <:+: t := by
  intro t pat v
  induction t, pat, v using strReplace.induct with
  | case1 pat v =>
    intro hshape _ _ hinf
    rcases hshape with ⟨p', rfl⟩
    rw [List.infix_nil] at hinf
    cases hinf
  | case2 pat v c s' hcond ih =>
    intro hshape hclean _ _
    rcases hshape with ⟨p', rfl⟩
    have hp := List.isPrefixOf_iff_prefix.mp hcond.2
    rw [List.cons_prefix_cons] at hp
    have hc : c = '[' := hp.1.symm
    subst hc
    apply hclean
    rw [List.takeWhile_cons_of_pos (by simp)]
    exact List.mem_cons_self _ _
  | case3 pat v c s' hcond ih =>
    intro hshape hclean hnc hinf
    have heq : strReplace (c :: s') pat v = c :: strReplace s' pat v := by
      rw [strReplace]; rw [if_neg hcond]
    rw [heq] at hnc
    have hcne : c ≠ ']' := fun hh => hnc (by simp [hh])
    have hnc' : ']' ∉ strReplace s' pat v :=
      fun hh => hnc (List.mem_cons_of_mem c hh)
    rcases List.infix_cons_iff.mp hinf with hp | hi
    · rcases hshape with ⟨p', rfl⟩
      rw [List.cons_prefix_cons] at hp
      apply hclean
      rw [List.takeWhile_cons_of_pos (by simp [hcne])]
      rw [← hp.1]
      exact List.mem_cons_self _ _
    · have hclean' : '[' ∉ s'.takeWhile (· ≠ ']') := by
        intro hmem
        apply hclean
        rw [List.takeWhile_cons_of_pos (by simp [hcne])]
        exact List.mem_cons_of_mem _ hmem
      exact ih hshape hclean' hnc' hi

/-! ### `CleanBrackets` and its stability under replacement -/

theorem cleanBrackets_mono {s t : Str} (hst : s <:+: t) (h : CleanBrackets t) :
    CleanBrackets s :=
  fun γ hγ hinf => h γ hγ (hinf.trans hst)

theorem dropWhile_ne_nil_of_mem {t : Str} (h : ']' ∈ t) :
    t.dropWhile (· ≠ ']') ≠ [] := by
  intro hd
  rw [List.dropWhile_eq_nil_iff] at hd
  have := hd ']' h
  simp at this

theorem clean_cons_open {s' : Str} (h : CleanBrackets ('[' :: s'))
    (hc : ']' ∈ s') : '[' ∉ s'.takeWhile (· ≠ ']') := by
  intro hmem
  have hdec := brkt_decomp (dropWhile_ne_nil_of_mem hc)
  have htok : tok (s'.takeWhile (· ≠ ']')) <+: '[' :: s' := by
    rw [tok]
    refine List.cons_prefix_cons.mpr ⟨rfl, ?_⟩
    conv_rhs => rw [hdec]
    rw [List.prefix_append_right_inj]
    exact ⟨_, rfl⟩
  have hninu : ']' ∉ s'.takeWhile (· ≠ ']') :=
    fun hh => by simpa using List.mem_takeWhile_imp hh
  exact absurd hmem (h _ hninu htok.isInfix)

/-- Replacing a bracket token by a `'['`-free value preserves the bracket
discipline. -/
theorem strReplace_clean :
    ∀ (t pat v : Str), (∃ k, pat = tok k) → '[' ∉ v →
      CleanBrackets t → CleanBrackets (strReplace t pat v) := by
  intro t pat v
  induction t, pat, v using strReplace.induct with
  | case1 pat v =>
    intro _ _ _
    rw [strReplace_nil]
    intro γ hγ hinf
    rw [List.infix_nil] at hinf
    exact absurd hinf (by simp [tok])
  | case2 pat v c s' hcond ih =>
    intro hshape hv hclean
    have hppre := List.isPrefixOf_iff_prefix.mp hcond.2
    rw [strReplace_cons_pos c s' pat v hcond.1 hppre]
    intro γ hγ hinf
    have hcleandrop : CleanBrackets ((c :: s').drop pat.length) :=
      cleanBrackets_mono (List.drop_suffix _ _).isInfix hclean
    rcases infix_append_cases hinf with h | h | ⟨m, hm1, hm2, hsuf, hpref⟩
    · exact absurd (h.sublist.mem (by simp [tok])) hv
    · exact ih hshape hv hcleandrop γ hγ h
    · exfalso
      apply hv
      refine hsuf.sublist.mem ?_
      rw [tok]
      rcases Nat.exists_eq_succ_of_ne_zero (by omega : m ≠ 0) with ⟨m', rfl⟩
      rw [List.take_succ_cons]
      exact List.mem_cons_self _ _
  | case3 pat v c s' hcond ih =>
    intro hshape hv hclean
    have heq : strReplace (c :: s') pat v = c :: strReplace s' pat v := by
      rw [strReplace]; rw [if_neg hcond]
    rw [heq]
    intro γ hγ hinf
    have hcleans' : CleanBrackets s' :=
      cleanBrackets_mono (List.suffix_cons c s').isInfix hclean
    rcases List.infix_cons_iff.mp hinf with hp | hi
    · rw [tok, List.cons_prefix_cons] at hp
      have hc : c = '[' := hp.1.symm
      subst hc
      have hpre' : γ ++ [']'] <+: s' := by
        by_cases hcs : ']' ∈ s'
        · refine aux_head_transfer s' pat v ?_ (clean_cons_open hclean hcs) γ hγ hp.2
          rcases hshape with ⟨k, rfl⟩
          exact ⟨k ++ [']'], rfl⟩
        · have hnp : ¬ pat <:+: s' := by
            intro hin
            rcases hshape with ⟨k, rfl⟩
            exact hcs (hin.sublist.mem (by simp [tok]))
          rw [strReplace_eq_self_of_absent v hnp] at hp
          exact hp.2
      have htp : tok γ <+: '[' :: s' := by
        rw [tok]
        exact List.cons_prefix_cons.mpr ⟨rfl, hpre'⟩
      exact hclean γ hγ htp.isInfix
    · exact ih hshape hv hcleans' γ hγ hi

/-- A bracket token of a clean name in the replaced text is not new: it
already occurred in the original, and its name differs from the replaced
key (all occurrences of which were removed). -/
theorem strReplace_token_src :
    ∀ (t pat v k : Str), pat = tok k → ']' ∉ k → '[' ∉ v →
      CleanBrackets t →
      ∀ k' : Str, k' ≠ [] → ']' ∉ k' →
        tok k' <:+: strReplace t pat v → k' ≠ k ∧ tok k' <:+: t := by
  intro t pat v
  induction t, pat, v using strReplace.induct with
  | case1 pat v =>
    intro k hk hknb hv hclean k' hk'ne hk'nb hinf
    rw [strReplace_nil, List.infix_nil] at hinf
    exact absurd hinf (by simp [tok])
  | case2 pat v c s' hcond ih =>
    intro k hk hknb hv hclean k' hk'ne hk'nb hinf
    have hppre := List.isPrefixOf_iff_prefix.mp hcond.2
    rw [strReplace_cons_pos c s' pat v hcond.1 hppre] at hinf
    have hcleandrop : CleanBrackets ((c :: s').drop pat.length) :=
      cleanBrackets_mono (List.drop_suffix _ _).isInfix hclean
    rcases infix_append_cases hinf with h | h | ⟨m, hm1, hm2, hsuf, hpref⟩
    · exact absurd (h.sublist.mem (by simp [tok])) hv
    · have hr := ih k hk hknb hv hcleandrop k' hk'ne hk'nb h
      exact ⟨hr.1, hr.2.trans (List.drop_suffix _ _).isInfix⟩
    · exfalso
      apply hv
      refine hsuf.sublist.mem ?_
      rw [tok]
      rcases Nat.exists_eq_succ_of_ne_zero (by omega : m ≠ 0) with ⟨m', rfl⟩
      rw [List.take_succ_cons]
      exact List.mem_cons_self _ _
  | case3 pat v c s' hcond ih =>
    intro k hk hknb hv hclean k' hk'ne hk'nb hinf
    have heq : strReplace (c :: s') pat v = c :: strReplace s' pat v := by
      rw [strReplace]; rw [if_neg hcond]
    rw [heq] at hinf
    have hcleans' : CleanBrackets s' :=
      cleanBrackets_mono (List.suffix_cons c s').isInfix hclean
    have hnpre : ¬ pat <+: c :: s' := by
      intro hp
      exact hcond ⟨by rw [hk]; simp [tok], List.isPrefixOf_iff_prefix.mpr hp⟩
    rcases List.infix_cons_iff.mp hinf with hp | hi
    · rw [tok, List.cons_prefix_cons] at hp
      have hc : c = '[' := hp.1.symm
      subst hc
      have hpre' : k' ++ [']'] <+: s' := by
        by_cases hcs : ']' ∈ s'
        · exact aux_head_transfer s' pat v ⟨k ++ [']'], by rw [hk]; rfl⟩
            (clean_cons_open hclean hcs) k' hk'nb hp.2
        · have hnp : ¬ pat <:+: s' := by
            intro hin
            exact hcs (hin.sublist.mem (by rw [hk]; simp [tok]))
          rw [strReplace_eq_self_of_absent v hnp] at hp
          exact hp.2
      have htp : tok k' <+: '[' :: s' := by
        rw [tok]
        exact List.cons_prefix_cons.mpr ⟨rfl, hpre'⟩
      refine ⟨?_, htp.isInfix⟩
      rintro rfl
      exact hnpre (by rw [hk]; exact htp)
    · have hr := ih k hk hknb hv hcleans' k' hk'ne hk'nb hi
      exact ⟨hr.1, infix_cons_lift hr.2⟩

/-- The value of an unclosed trailing bracket region survives replacement
unchanged: if the replaced text ends in `'[' :: b` with `b` free of `']'`,
so did the original. -/
theorem strReplace_open_tail :
    ∀ (t pat v k : Str), pat = tok k → ']' ∉ k → '[' ∉ v →
      CleanBrackets t →
      ∀ a b : Str, ']' ∉ b → strReplace t pat v = a ++ '[' :: b →
        ∃ a', t = a' ++ '[' :: b := by
  intro t pat v
  induction t, pat, v using strReplace.induct with
  | case1 pat v =>
    intro k hk hknb hv hclean a b hb heq
    rw [strReplace_nil] at heq
    exact absurd (congrArg List.length heq) (by simp; omega)
  | case2 pat v c s' hcond ih =>
    intro k hk hknb hv hclean a b hb heq
    have hppre := List.isPrefixOf_iff_prefix.mp hcond.2
    rw [strReplace_cons_pos c s' pat v hcond.1 hppre] at heq
    rcases append_eq_append_cons heq with ⟨a₂, hv2, hb2⟩ | ⟨b₁, ha2, hR⟩
    · exact absurd (show '[' ∈ v by rw [hv2]; simp) hv
    · rcases ih k hk hknb hv
        (cleanBrackets_mono (List.drop_suffix _ _).isInfix hclean) b₁ b hb hR with ⟨a', ha'⟩
      rcases hppre with ⟨w, hw⟩
      refine ⟨pat ++ a', ?_⟩
      have hd : (c :: s').drop pat.length = w := by
        rw [← hw, List.drop_left]
      rw [← hw, ← hd, ha', List.append_assoc]
  | case3 pat v c s' hcond ih =>
    intro k hk hknb hv hclean a b hb heq
    have heq0 : strReplace (c :: s') pat v = c :: strReplace s' pat v := by
      rw [strReplace]; rw [if_neg hcond]
    rw [heq0] at heq
    cases a with
    | nil =>
      simp only [List.nil_append] at heq
      injection heq with h1 h2
      subst h1
      have hnp : ¬ pat <:+: s' := by
        by_cases hcs : ']' ∈ s'
        · exact no_pat_of_no_close s' pat v ⟨k ++ [']'], by rw [hk]; rfl⟩
            (clean_cons_open hclean hcs) (by rw [h2]; exact hb)
        · intro hin
          exact hcs (hin.sublist.mem (by rw [hk]; simp [tok]))
      rw [strReplace_eq_self_of_absent v hnp] at h2
      exact ⟨[], by rw [List.nil_append, h2]⟩
    | cons a₀ a₂ =>
      simp only [List.cons_append] at heq
      injection heq with h1 h2
      rcases ih k hk hknb hv
        (cleanBrackets_mono (List.suffix_cons c s').isInfix hclean) a₂ b hb h2 with ⟨a', ha'⟩
      exact ⟨a₀ :: a', by rw [List.cons_append, ← h1, ha']⟩

/-! ### The per-run replacement loop -/

theorem replaceRun_eq_fold (values : List (Str × Str)) (t : Str) :
    replaceRun values t =
      values.foldl (fun acc kv => strReplace acc (tok kv.1) kv.2) t := by
  unfold replaceRun
  induction values generalizing t with
  | nil => rfl
  | cons kv kvs ih =>
    rw [List.foldl_cons, List.foldl_cons]
    by_cases hc : containsTok t (tok kv.1)
    · rw [if_pos hc]
      exact ih _
    · rw [if_neg hc, strReplace_eq_self_of_absent kv.2 hc]
      exact ih _

theorem replaceRun_cons (kv : Str × Str) (kvs : List (Str × Str)) (t : Str) :
    replaceRun (kv :: kvs) t = replaceRun kvs (strReplace t (tok kv.1) kv.2) := by
  rw [replaceRun_eq_fold, replaceRun_eq_fold, List.foldl_cons]

theorem replaceRun_id_no_close {t : Str} (values : List (Str × Str))
    (h : ']' ∉ t) : replaceRun values t = t := by
  refine replaceRun_id ?_
  intro kv _ hinf
  exact h (hinf.sublist.mem (by simp [tok]))

theorem replaceRun_clean {values : List (Str × Str)} :
    ∀ {t : Str}, (∀ kv ∈ values, '[' ∉ kv.2) → CleanBrackets t →
      CleanBrackets (replaceRun values t) := by
  induction values with
  | nil =>
    intro t _ h
    exact h
  | cons kv kvs ih =>
    intro t hv h
    rw [replaceRun_cons]
    exact ih (fun kv' h' => hv kv' (List.mem_cons_of_mem kv h'))
      (strReplace_clean t (tok kv.1) kv.2 ⟨kv.1, rfl⟩
        (hv kv (List.mem_cons_self kv kvs)) h)

theorem replaceRun_token_src {values : List (Str × Str)} :
    ∀ {t : Str}, (∀ kv ∈ values, ']' ∉ kv.1 ∧ '[' ∉ kv.2) → CleanBrackets t →
      ∀ k' : Str, k' ≠ [] → ']' ∉ k' →
        tok k' <:+: replaceRun values t → tok k' <:+: t := by
  induction values with
  | nil =>
    intro t _ _ k' _ _ h
    exact h
  | cons kv kvs ih =>
    intro t hv h k' hk'ne hk'nb hinf
    rw [replaceRun_cons] at hinf
    have h1 : CleanBrackets (strReplace t (tok kv.1) kv.2) :=
      strReplace_clean t (tok kv.1) kv.2 ⟨kv.1, rfl⟩
        (hv kv (List.mem_cons_self kv kvs)).2 h
    have h2 := ih (fun kv' h' => hv kv' (List.mem_cons_of_mem kv h')) h1
      k' hk'ne hk'nb hinf
    exact (strReplace_token_src t (tok kv.1) kv.2 kv.1 rfl
      (hv kv (List.mem_cons_self kv kvs)).1
      (hv kv (List.mem_cons_self kv kvs)).2 h k' hk'ne hk'nb h2).2

theorem replaceRun_removes {values : List (Str × Str)} :
    ∀ {t : Str},
      (∀ kv ∈ values, kv.1 ≠ [] ∧ ']' ∉ kv.1 ∧ '[' ∉ kv.2) →
      CleanBrackets t →
      ∀ kv ∈ values, ¬ tok kv.1 <:+: replaceRun values t := by
  induction values with
  | nil =>
    intro t _ _ kv hkv
    simp at hkv
  | cons kv₀ kvs ih =>
    intro t hv h kv hkv hinf
    rw [replaceRun_cons] at hinf
    have hv₀ := hv kv₀ (List.mem_cons_self kv₀ kvs)
    have h1 : CleanBrackets (strReplace t (tok kv₀.1) kv₀.2) :=
      strReplace_clean t (tok kv₀.1) kv₀.2 ⟨kv₀.1, rfl⟩ hv₀.2.2 h
    rcases List.mem_cons.mp hkv with h0 | h0
    · subst h0
      have hv' := hv kv hkv
      have hsrc := replaceRun_token_src
        (fun kv' h' => ⟨(hv kv' (List.mem_cons_of_mem kv h')).2.1,
          (hv kv' (List.mem_cons_of_mem kv h')).2.2⟩) h1
        kv.1 hv'.1 hv'.2.1 hinf
      exact (strReplace_token_src t (tok kv.1) kv.2 kv.1 rfl hv'.2.1 hv'.2.2 h
        kv.1 hv'.1 hv'.2.1 hsrc).1 rfl
    · exact ih (fun kv' h' => hv kv' (List.mem_cons_of_mem kv₀ h')) h1 kv h0 hinf

theorem replaceRun_open_tail {values : List (Str × Str)} :
    ∀ {t : Str},
      (∀ kv ∈ values, ']' ∉ kv.1 ∧ '[' ∉ kv.2) → CleanBrackets t →
      ∀ a b : Str, ']' ∉ b → replaceRun values t = a ++ '[' :: b →
        ∃ a', t = a' ++ '[' :: b := by
  induction values with
  | nil =>
    intro t _ _ a b _ h
    exact ⟨a, h⟩
  | cons kv kvs ih =>
    intro t hv h a b hb heq
    rw [replaceRun_cons] at heq
    have hv₀ := hv kv (List.mem_cons_self kv kvs)
    have h1 : CleanBrackets (strReplace t (tok kv.1) kv.2) :=
      strReplace_clean t (tok kv.1) kv.2 ⟨kv.1, rfl⟩ hv₀.2 h
    rcases ih (fun kv' h' => hv kv' (List.mem_cons_of_mem kv h')) h1
      a b hb heq with ⟨a', ha'⟩
    exact strReplace_open_tail t (tok kv.1) kv.2 kv.1 rfl hv₀.1 hv₀.2 h a' b hb ha'

theorem strReplace_brkt_head {u : Str} (hnb : ']' ∉ u) (hno : '[' ∉ u)
    (t₂ v pat : Str) (hshape : ∃ p', pat = '[' :: p') :
    strReplace (u ++ ']' :: t₂) pat v = u ++ ']' :: strReplace t₂ pat v := by
  obtain ⟨p', rfl⟩ := hshape
  induction u with
  | nil =>
    simp only [List.nil_append]
    rw [strReplace_cons_neg]
    intro hcon
    rw [List.cons_prefix_cons] at hcon
    simp at hcon
  | cons c u' ih =>
    simp only [List.cons_append]
    rw [strReplace_cons_neg]
    · rw [ih (fun hh => hnb (List.mem_cons_of_mem c hh))
        (fun hh => hno (List.mem_cons_of_mem c hh))]
    · intro hcon
      rw [List.cons_prefix_cons] at hcon
      exact hno (by rw [hcon.1]; exact List.mem_cons_self _ _)

theorem replaceRun_brkt_head {u : Str} (hnb : ']' ∉ u) (hno : '[' ∉ u)
    (values : List (Str × Str)) :
    ∀ t₂ : Str, replaceRun values (u ++ ']' :: t₂) =
      u ++ ']' :: replaceRun values t₂ := by
  induction values with
  | nil =>
    intro t₂
    rw [replaceRun_eq_fold, replaceRun_eq_fold]
    rfl
  | cons kv kvs ih =>
    intro t₂
    rw [replaceRun_cons, replaceRun_cons]
    rw [strReplace_brkt_head hnb hno t₂ kv.2 (tok kv.1) ⟨kv.1 ++ [']'], rfl⟩]
    exact ih _

/-- Notation-free helper: `tok γ = ('[' :: γ) ++ [']']`. -/
theorem tok_eq_append (γ : Str) : tok γ = ('[' :: γ) ++ [']'] := by
  rw [tok]
  simp

theorem drop_brkt (u w : Str) : (u ++ ']' :: w).drop (u.length + 1) = w := by
  rw [← List.drop_drop, List.drop_left]
  rfl

/-- A text whose scanned names are all `'['`-free obeys the bracket
discipline. -/
theorem clean_of_scan_clean :
    ∀ t : Str, (∀ n ∈ scanAux t, '[' ∉ n) → CleanBrackets t := by
  intro t
  induction t using scanAux.induct with
  | case1 =>
    intro _ γ hγ hinf
    rw [List.infix_nil] at hinf
    exact absurd hinf (by simp [tok])
  | case2 rest name hcnd ih =>
    intro hnames γ hγ hinf
    have hnames' : ∀ n ∈ scanAux (rest.drop (name.length + 1)), '[' ∉ n := by
      intro n hn
      refine hnames n ?_
      rw [scanAux_open_pos rest hcnd.1 hcnd.2]
      exact List.mem_cons_of_mem _ hn
    have hname_clean : '[' ∉ rest.takeWhile (· ≠ ']') := by
      refine hnames _ ?_
      rw [scanAux_open_pos rest hcnd.1 hcnd.2]
      exact List.mem_cons_self _ _
    have hdec := brkt_decomp hcnd.2
    rcases List.infix_cons_iff.mp hinf with hp | hi
    · rw [tok, List.cons_prefix_cons] at hp
      rcases hp.2 with ⟨d, hd⟩
      rw [List.append_assoc] at hd
      have hd' : rest = γ ++ ']' :: d := by rw [← hd]; simp
      have := takeWhile_brkt γ d hγ
      intro hcon
      apply hname_clean
      rw [hd', this.1]
      exact hcon
    · -- inside `rest = takeWhile ++ ']' :: tail`
      rw [hdec] at hi
      have htail : rest.drop (name.length + 1) =
          (rest.dropWhile (· ≠ ']')).tail := by
        have h1 := drop_brkt (rest.takeWhile (· ≠ ']'))
          ((rest.dropWhile (· ≠ ']')).tail)
        rw [← hdec] at h1
        exact h1
      rcases infix_append_cases hi with h | h | ⟨m, hm1, hm2, hsuf, hpref⟩
      · exfalso
        exact hname_clean (h.sublist.mem (by simp [tok]))
      · rcases List.infix_cons_iff.mp h with hp2 | hi2
        · exfalso
          rw [tok, List.cons_prefix_cons] at hp2
          simp at hp2
        · have := ih hnames' γ hγ (by rw [htail]; exact hi2)
          exact this
      · -- spanning the `']'`: the token's closing must be that `']'`,
        -- so `'[' :: γ` is a suffix of the clean name
        exfalso
        have hs2 : (tok γ).drop m <+: ']' :: (rest.dropWhile (· ≠ ']')).tail :=
          hpref
        rcases hdd : (tok γ).drop m with _ | ⟨b, w⟩
        · have hlen := congrArg List.length hdd
          rw [List.length_drop] at hlen
          simp at hlen
          omega
        · rw [hdd] at hs2
          rw [List.cons_prefix_cons] at hs2
          have hb : b = ']' := hs2.1
          subst hb
          have hsplit : ('[' :: γ) ++ [']'] = (tok γ).take m ++ ']' :: w := by
            rw [← tok_eq_append, ← hdd, List.take_append_drop]
          rcases append_eq_append_cons hsplit with ⟨a₂, hx, _⟩ | ⟨b₁, hx, hy⟩
          · have : ']' ∈ '[' :: γ := by rw [hx]; simp
            rcases List.mem_cons.mp this with h' | h'
            · simp at h'
            · exact hγ h'
          · have hb₁ : b₁ = [] := by
              have := congrArg List.length hy
              simp at this
              exact List.eq_nil_of_length_eq_zero (by omega)
            subst hb₁
            rw [List.append_nil] at hx
            apply hname_clean
            refine hsuf.sublist.mem ?_
            rw [hx]
            simp
  | case3 rest name hcnd ih =>
    intro hnames γ hγ hinf
    rw [scanAux_open_neg rest hcnd] at hnames
    rcases List.infix_cons_iff.mp hinf with hp | hi
    · rw [tok, List.cons_prefix_cons] at hp
      rcases hp.2 with ⟨d, hd⟩
      rw [List.append_assoc] at hd
      cases γ with
      | nil => simp
      | cons g γ' =>
        exfalso
        have hd' : rest = (g :: γ') ++ ']' :: d := by
          rw [← hd]
          simp
        have htw := takeWhile_brkt (g :: γ') d hγ
        refine hcnd ⟨?_, ?_⟩
        · show rest.takeWhile (· ≠ ']') ≠ []
          rw [hd', htw.1]
          simp
        · show rest.dropWhile (· ≠ ']') ≠ []
          rw [hd', htw.2]
          simp
    · exact ih hnames γ hγ hi
  | case4 c rest hc ih =>
    intro hnames γ hγ hinf
    rw [scanAux_cons_ne c rest (fun h => hc h)] at hnames
    rcases List.infix_cons_iff.mp hinf with hp | hi
    · exfalso
      rw [tok, List.cons_prefix_cons] at hp
      exact hc hp.1.symm
    · exact ih hnames γ hγ hi

theorem takeWhile_ne_not_mem (r : Str) : ']' ∉ r.takeWhile (· ≠ ']') :=
  fun hh => by simpa using List.mem_takeWhile_imp hh

theorem takeWhile_append_of_mem {r X : Str} (h : ']' ∈ r) :
    (r ++ X).takeWhile (· ≠ ']') = r.takeWhile (· ≠ ']') := by
  have hdec := brkt_decomp (dropWhile_ne_nil_of_mem h)
  have hnb := takeWhile_ne_not_mem r
  conv_lhs => rw [hdec]
  rw [List.append_assoc, List.cons_append]
  rw [(takeWhile_brkt _ _ hnb).1]

theorem takeWhile_append_of_not_mem {r X : Str} (h : ']' ∉ r) :
    (r ++ X).takeWhile (· ≠ ']') = r ++ X.takeWhile (· ≠ ']') := by
  induction r with
  | nil => simp
  | cons c r' ih =>
    have hc : c ≠ ']' := fun hh => h (by simp [hh])
    simp only [List.cons_append]
    rw [List.takeWhile_cons_of_pos (by simp [hc]),
      ih (fun hh => h (List.mem_cons_of_mem c hh))]

theorem prefix_close_eq {γ u Z : Str} (hγ : ']' ∉ γ) (hu : ']' ∉ u)
    (h : γ ++ [']'] <+: u ++ ']' :: Z) : γ = u := by
  rcases h with ⟨w, hw⟩
  rw [List.append_assoc] at hw
  have hw' : γ ++ ']' :: w = u ++ ']' :: Z := by simpa using hw
  have h1 := (takeWhile_brkt γ w hγ).1
  have h2 := (takeWhile_brkt u Z hu).1
  rw [← hw'] at h2
  rw [h1] at h2
  exact h2

theorem prefix_through_clean {γ r Z : Str} (hr : ']' ∉ r) (hγ : ']' ∉ γ)
    (h : γ ++ [']'] <+: r ++ Z) :
    r <+: γ ∧ γ.drop r.length ++ [']'] <+: Z := by
  have hlen : r.length ≤ γ.length := by
    by_contra hlt
    push_neg at hlt
    have hpre : γ ++ [']'] <+: r :=
      List.prefix_of_prefix_length_le h (List.prefix_append r Z) (by simp; omega)
    exact hr (hpre.sublist.mem (by simp))
  have hrγ : r <+: γ := by
    have h1 : r <+: γ ++ [']'] :=
      List.prefix_of_prefix_length_le (List.prefix_append r Z) h (by simp; omega)
    rw [List.prefix_iff_eq_take] at h1 ⊢
    rw [List.take_append_of_le_length hlen] at h1
    exact h1
  refine ⟨hrγ, ?_⟩
  rcases hrγ with ⟨w, hw⟩
  have hwd : w = γ.drop r.length := by rw [← hw, List.drop_left]
  rcases h with ⟨z, hz⟩
  rw [← hw, List.append_assoc, List.append_assoc] at hz
  have hc := List.append_cancel_left hz
  rw [← List.append_assoc] at hc
  rw [← hwd]
  exact ⟨z, hc⟩

/-- Continuation lemma: a `']'`-closed prefix of the concatenated
substituted suffix runs was already a prefix of the original concatenated
runs, provided the region before the first `']'` is `'['`-free. -/
theorem cont_flatten (values : List (Str × Str))
    (hkv : ∀ kv ∈ values, ']' ∉ kv.1 ∧ '[' ∉ kv.2) :
    ∀ (rs : List Str) (γ : Str), ']' ∉ γ →
      (']' ∈ rs.flatten → '[' ∉ rs.flatten.takeWhile (· ≠ ']')) →
      γ ++ [']'] <+: (rs.map (replaceRun values)).flatten →
      γ ++ [']'] <+: rs.flatten := by
  intro rs
  induction rs with
  | nil =>
    intro γ _ _ h
    simp at h
  | cons r rs' ih =>
    intro γ hγ hclean hpre
    rw [List.map_cons, List.flatten_cons] at hpre
    rw [List.flatten_cons]
    by_cases hflat : ']' ∈ (r :: rs').flatten
    · by_cases hcr : ']' ∈ r
      · have hdec := brkt_decomp (dropWhile_ne_nil_of_mem hcr)
        have hunb := takeWhile_ne_not_mem r
        have huno : '[' ∉ r.takeWhile (· ≠ ']') := by
          have hcl := hclean hflat
          rw [List.flatten_cons, takeWhile_append_of_mem hcr] at hcl
          exact hcl
        rw [hdec, replaceRun_brkt_head hunb huno values _] at hpre
        rw [List.append_assoc, List.cons_append] at hpre
        have hgu := prefix_close_eq hγ hunb hpre
        rw [hgu]
        refine ⟨(r.dropWhile (· ≠ ']')).tail ++ rs'.flatten, ?_⟩
        conv_rhs => rw [hdec]
        simp
      · have hrs' : ']' ∈ rs'.flatten := by
          rw [List.flatten_cons] at hflat
          rcases List.mem_append.mp hflat with h | h
          · exact absurd h hcr
          · exact h
        have hcl2 : '[' ∉ r ∧ '[' ∉ rs'.flatten.takeWhile (· ≠ ']') := by
          have hcl := hclean hflat
          rw [List.flatten_cons, takeWhile_append_of_not_mem hcr] at hcl
          exact ⟨fun hh => hcl (List.mem_append_left _ hh),
            fun hh => hcl (List.mem_append_right _ hh)⟩
        rw [replaceRun_id_no_close values hcr] at hpre
        have hsp := prefix_through_clean hcr hγ hpre
        have hγ' : ']' ∉ γ.drop r.length :=
          fun hh => hγ ((List.drop_sublist _ _).mem hh)
        have hrec := ih (γ.drop r.length) hγ' (fun _ => hcl2.2) hsp.2
        rcases hsp.1 with ⟨w, hw⟩
        have hwd : w = γ.drop r.length := by rw [← hw, List.drop_left]
        rw [← hw, List.append_assoc, List.prefix_append_right_inj, hwd]
        exact hrec
    · have hid : ∀ s ∈ r :: rs', replaceRun values s = s := by
        intro s hs
        refine replaceRun_id_no_close values ?_
        intro hmem
        exact hflat (List.mem_flatten.mpr ⟨s, hs, hmem⟩)
      rw [hid r (List.mem_cons_self r rs'),
        map_id_of_mem (fun s hs => hid s (List.mem_cons_of_mem r hs))] at hpre
      exact hpre

/-- Main paragraph-level invariant: after the per-run loop runs over every
run, no bracket token of any Value-Set key occurs anywhere in the
paragraph's concatenated text — not even spanning run boundaries —
provided the original text obeys the bracket discipline and every key
token occurred within a single run. -/
theorem para_no_tokens (values : List (Str × Str))
    (hkv : ∀ kv ∈ values, kv.1 ≠ [] ∧ ']' ∉ kv.1 ∧ '[' ∉ kv.2) :
    ∀ rs : List Str, CleanBrackets rs.flatten →
      (∀ kv ∈ values, RunLocal rs (tok kv.1)) →
      ∀ kv ∈ values, ¬ tok kv.1 <:+: (rs.map (replaceRun values)).flatten := by
  intro rs
  induction rs with
  | nil =>
    intro _ _ kv _ hinf
    rw [List.map_nil, List.flatten_nil, List.infix_nil] at hinf
    simp [tok] at hinf
  | cons r rs' ih =>
    intro hclean hlocal kv hkvm hinf
    have hkv1 := hkv kv hkvm
    rw [List.flatten_cons] at hclean
    have hcleanr : CleanBrackets r :=
      cleanBrackets_mono (List.prefix_append r rs'.flatten).isInfix hclean
    have hcleans : CleanBrackets rs'.flatten :=
      cleanBrackets_mono (List.suffix_append r rs'.flatten).isInfix hclean
    have hlen_tok : (tok kv.1).length = kv.1.length + 2 := by simp [tok]
    rw [List.map_cons, List.flatten_cons] at hinf
    rcases infix_iff_exists_occ.mp hinf with ⟨i, hocc⟩
    by_cases h1 : i + (tok kv.1).length ≤ (replaceRun values r).length
    · have hin : tok kv.1 <:+: replaceRun values r :=
        infix_iff_exists_occ.mpr ⟨i, occ_append_left h1 hocc⟩
      exact replaceRun_removes hkv hcleanr kv hkvm hin
    · by_cases h2 : (replaceRun values r).length ≤ i
      · have hocc' := occ_in_right h2 hocc
        have hlocal' : ∀ kv' ∈ values, RunLocal rs' (tok kv'.1) := by
          intro kv' hkv' i' hocc''
          have hshift : Occ (r :: rs').flatten (tok kv'.1) (r.length + i') := by
            rw [List.flatten_cons]
            exact occ_append_right hocc''
          have hior := hlocal kv' hkv' (r.length + i') hshift
          simp only [InOneRun] at hior
          rcases hior with h | h
          · exfalso
            have := (hkv kv' hkv').1
            have hp : 0 < (tok kv'.1).length := by simp [tok]
            omega
          · have heq : r.length + i' - r.length = i' := by omega
            rw [heq] at h
            exact h.2
        exact ih hcleans hlocal' kv hkvm
          (infix_iff_exists_occ.mpr ⟨i - (replaceRun values r).length, hocc'⟩)
      · push_neg at h1 h2
        have hsp := occ_split hocc h2 h1
        have hm1 : 1 ≤ (replaceRun values r).length - i := by omega
        have hm2 : (replaceRun values r).length - i < (tok kv.1).length := by omega
        set m := (replaceRun values r).length - i with hmdef
        have hmk : m - 1 ≤ kv.1.length := by omega
        have htake : (tok kv.1).take m = '[' :: kv.1.take (m - 1) := by
          rw [tok]
          rcases Nat.exists_eq_succ_of_ne_zero (by omega : m ≠ 0) with ⟨m', hm'⟩
          rw [hm']
          rw [List.take_succ_cons]
          rw [List.take_append_of_le_length (by omega)]
          simp
        have hdropt : (tok kv.1).drop m = kv.1.drop (m - 1) ++ [']'] := by
          rw [tok]
          rcases Nat.exists_eq_succ_of_ne_zero (by omega : m ≠ 0) with ⟨m', hm'⟩
          rw [hm']
          rw [List.drop_succ_cons]
          rw [List.drop_append_of_le_length (by omega)]
          simp
        have hFtail : replaceRun values r =
            (replaceRun values r).take i ++ '[' :: kv.1.take (m - 1) := by
          conv_lhs => rw [← List.take_append_drop i (replaceRun values r)]
          rw [hsp.1, htake]
        have hknb : ']' ∉ kv.1.take (m - 1) :=
          fun hh => hkv1.2.1 ((List.take_sublist _ _).mem hh)
        rcases replaceRun_open_tail
          (fun kv' h' => ⟨(hkv kv' h').2.1, (hkv kv' h').2.2⟩) hcleanr
          ((replaceRun values r).take i) (kv.1.take (m - 1)) hknb hFtail
          with ⟨a', ha'⟩
        have hy : kv.1.drop (m - 1) ++ [']'] <+:
            (rs'.map (replaceRun values)).flatten := by
          rw [← hdropt]
          exact hsp.2
        have hcont_hyp : ']' ∈ rs'.flatten →
            '[' ∉ rs'.flatten.takeWhile (· ≠ ']') := by
          intro hmem hopen
          have hw : ']' ∈ kv.1.take (m - 1) ++ rs'.flatten :=
            List.mem_append_right _ hmem
          have hdecw := brkt_decomp (dropWhile_ne_nil_of_mem hw)
          have htokw : tok ((kv.1.take (m - 1) ++ rs'.flatten).takeWhile (· ≠ ']'))
              <:+: r ++ rs'.flatten := by
            refine ⟨a', ((kv.1.take (m - 1) ++
              rs'.flatten).dropWhile (· ≠ ']')).tail, ?_⟩
            rw [ha', tok]
            simp only [List.append_assoc, List.cons_append,
              List.singleton_append, List.nil_append]
            rw [← hdecw]
          have hcl := hclean _ (takeWhile_ne_not_mem _) htokw
          apply hcl
          rw [takeWhile_append_of_not_mem hknb]
          exact List.mem_append_right _ hopen
        have hcont := cont_flatten values
          (fun kv' h' => ⟨(hkv kv' h').2.1, (hkv kv' h').2.2⟩) rs'
          (kv.1.drop (m - 1))
          (fun hh => hkv1.2.1 ((List.drop_sublist _ _).mem hh))
          hcont_hyp hy
        rcases hcont with ⟨X, hX⟩
        rw [List.append_assoc] at hX
        have hXcons : rs'.flatten = kv.1.drop (m - 1) ++ ']' :: X := by
          rw [← hX]
          simp
        have hflat_eq : (r :: rs').flatten = a' ++ tok kv.1 ++ X := by
          rw [List.flatten_cons, ha', hXcons, tok_eq_append]
          simp only [List.append_assoc, List.cons_append,
            List.singleton_append, List.nil_append]
          rw [← List.append_assoc, List.take_append_drop]
        have hocc0 : Occ (r :: rs').flatten (tok kv.1) a'.length := by
          unfold Occ
          rw [hflat_eq, List.append_assoc, List.drop_left]
          exact List.prefix_append _ _
        have hior := hlocal kv hkvm a'.length hocc0
        simp only [InOneRun] at hior
        have hrlen : r.length = a'.length + m := by
          rw [ha']
          simp
          omega
        rcases hior with h | h
        · omega
        · rcases h with ⟨h3, _⟩
          omega

/-! ### Claim C2: filling removes the placeholder tokens -/

theorem mem_extract_iff {doc : Document} {n : Str} :
    n ∈ extract_placeholders doc ↔
      ∃ p ∈ allParas doc, n ∈ scanAux (paraText p) := by
  unfold extract_placeholders
  rw [List.Perm.mem_iff (List.perm_insertionSort _ _), List.mem_dedup,
    List.mem_flatMap]

theorem allParas_fill (doc : Document) (values : List (Str × Str)) :
    allParas (fill_template doc values) =
      (allParas doc).map (replace_in_paragraph · values) := by
  unfold allParas fill_template
  dsimp only
  rw [List.map_append]
  congr 1
  rw [List.flatMap_map, List.map_flatMap]
  congr 1
  funext table
  rw [List.flatMap_map, List.map_flatMap]
  congr 1
  funext row
  rw [List.flatMap_map, List.map_flatMap]

theorem runLocal_single (r pat : Str) (hne : pat ≠ []) : RunLocal [r] pat := by
  intro i hocc
  have hl := occ_length hne hocc
  simp only [List.flatten, List.append_nil] at hl
  simp only [InOneRun]
  left
  exact hl

/-- C2, counterexample to the claim as stated.  Document: one paragraph
with the single run `"[A]"`; Value Set `{A ↦ "[A]"}` whose key set equals
the scan and whose sole token lies within a single run.  Filling replaces
`[A]` by `[A]`, so scanning the filled result still finds the key's
token. -/
theorem c2_counterexample :
    ([("A".data, "[A]".data)].map Prod.fst =
        extract_placeholders ⟨[["[A]".data]], []⟩) ∧
      (∀ p ∈ allParas (⟨[["[A]".data]], []⟩ : Document),
        ∀ kv ∈ [("A".data, "[A]".data)], RunLocal p (tok kv.1)) ∧
      fill_template ⟨[["[A]".data]], []⟩ [("A".data, "[A]".data)] =
        ⟨[["[A]".data]], []⟩ ∧
      tok "A".data <:+: paraText ["[A]".data] := by
  refine ⟨?_, ?_, ?_, ?_⟩
  · unfold extract_placeholders allParas paraText
    simp [scanAux]
  · intro p hp kv hkv
    simp only [allParas, List.append_nil, List.flatMap_nil, List.mem_singleton] at hp
    subst hp
    simp only [List.mem_singleton] at hkv
    subst hkv
    exact runLocal_single _ _ (by simp [tok])
  · unfold fill_template
    dsimp only
    congr 1
    simp only [List.map_cons, List.map_nil]
    congr 1
    unfold replace_in_paragraph
    rw [if_neg (by unfold paraText; simp [scanAux])]
    have hrep : replaceRun [("A".data, "[A]".data)] "[A]".data = "[A]".data := by
      unfold replaceRun
      rw [List.foldl_cons, List.foldl_nil]
      rw [if_pos (by decide)]
      show strReplace "[A]".data "[A]".data "[A]".data = "[A]".data
      rw [strReplace_cons_pos _ _ _ _ (by decide) (by decide)]
      simp [strReplace_nil]
    simp [hrep]
  · exact ⟨[], [], by decide⟩

/-- C2, amended.  If moreover no scanned placeholder name contains `'['`
and no substitution value contains `'['`, then (with the Value Set keyed
exactly by the scan, and every key token lying within a single run)
filling leaves no occurrence of any key's bracket token anywhere in the
document — scanning the filled result finds none of them. -/
theorem c2_amended (doc : Document) (values : List (Str × Str))
    (hkeys : values.map Prod.fst = extract_placeholders doc)
    (hclean : ∀ n ∈ extract_placeholders doc, '[' ∉ n)
    (hvals : ∀ kv ∈ values, '[' ∉ kv.2)
    (hlocal : ∀ p ∈ allParas doc, ∀ kv ∈ values, RunLocal p (tok kv.1)) :
    ∀ kv ∈ values, ∀ p ∈ allParas (fill_template doc values),
      ¬ tok kv.1 <:+: paraText p := by
  have hkv : ∀ kv' ∈ values, kv'.1 ≠ [] ∧ ']' ∉ kv'.1 ∧ '[' ∉ kv'.2 := by
    intro kv' h'
    have hmem' : kv'.1 ∈ extract_placeholders doc := by
      rw [← hkeys]
      exact List.mem_map.mpr ⟨kv', h', rfl⟩
    rcases mem_extract_iff.mp hmem' with ⟨q', hq', hqm'⟩
    have hs := scanAux_sound (paraText q') kv'.1 hqm'
    exact ⟨hs.1, hs.2.1, hvals kv' h'⟩
  intro kv hkvm p hp hinf
  rw [allParas_fill] at hp
  rcases List.mem_map.mp hp with ⟨p₀, hp₀, rfl⟩
  have hcleanp : CleanBrackets (paraText p₀) := by
    refine clean_of_scan_clean _ ?_
    intro n hn
    exact hclean n (mem_extract_iff.mpr ⟨p₀, hp₀, hn⟩)
  unfold replace_in_paragraph at hinf
  by_cases hguard : scanAux (paraText p₀) = []
  · rw [if_pos hguard] at hinf
    exact scanAux_complete (hkv kv hkvm).1 (hkv kv hkvm).2.1 (paraText p₀)
      hinf hguard
  · rw [if_neg hguard] at hinf
    exact para_no_tokens values hkv p₀ hcleanp
      (fun kv' h' => hlocal p₀ hp₀ kv' h') kv hkvm hinf

/-- C2, witness for the amended theorem on a concrete document. -/
theorem c2_amended_witness :
    ¬ tok "Name".data <:+:
      paraText (replace_in_paragraph ["Dear [Name]!".data]
        [("Name".data, "Bob".data)]) := by
  have h := c2_amended ⟨[["Dear [Name]!".data]], []⟩
    [("Name".data, "Bob".data)]
    (by unfold extract_placeholders allParas paraText; simp [scanAux])
    (by
      unfold extract_placeholders allParas paraText
      simp [scanAux])
    (by decide)
    (by
      intro p hp kv hkv
      simp only [allParas, List.append_nil, List.flatMap_nil,
        List.mem_singleton] at hp
      subst hp
      simp only [List.mem_singleton] at hkv
      subst hkv
      exact runLocal_single _ _ (by simp [tok]))
  exact h ("Name".data, "Bob".data) (by simp)
    (replace_in_paragraph ["Dear [Name]!".data] [("Name".data, "Bob".data)])
    (by simp [allParas, fill_template])

/-! ### Claim C9: scan/fill asymmetry on run boundaries -/

/-- When every scanned name is `'['`-free, the scanner reports exactly the
name of every clean bracket token occurring in the text. -/
theorem scanAux_finds :
    ∀ t : Str, (∀ n ∈ scanAux t, '[' ∉ n) →
      ∀ γ : Str, γ ≠ [] → ']' ∉ γ → tok γ <:+: t → γ ∈ scanAux t := by
  intro t
  induction t using scanAux.induct with
  | case1 =>
    intro _ γ hne hnb hinf
    rw [List.infix_nil] at hinf
    exact absurd hinf (by simp [tok])
  | case2 rest name hcnd ih =>
    intro hnames γ hne hnb hinf
    rw [scanAux_open_pos rest hcnd.1 hcnd.2] at hnames ⊢
    have hname_clean : '[' ∉ rest.takeWhile (· ≠ ']') :=
      hnames _ (List.mem_cons_self _ _)
    have hdec := brkt_decomp hcnd.2
    rcases List.infix_cons_iff.mp hinf with hp | hi
    · rw [tok, List.cons_prefix_cons] at hp
      rcases hp.2 with ⟨d, hd⟩
      rw [List.append_assoc] at hd
      have hd' : rest = γ ++ ']' :: d := by rw [← hd]; simp
      have htw := takeWhile_brkt γ d hnb
      have : rest.takeWhile (· ≠ ']') = γ := by rw [hd', htw.1]
      rw [← this]
      exact List.mem_cons_self _ _
    · rw [hdec] at hi
      have htail : rest.drop (name.length + 1) =
          (rest.dropWhile (· ≠ ']')).tail := by
        have h1 := drop_brkt (rest.takeWhile (· ≠ ']'))
          ((rest.dropWhile (· ≠ ']')).tail)
        rw [← hdec] at h1
        exact h1
      rcases infix_append_cases hi with h | h | ⟨m, hm1, hm2, hsuf, hpref⟩
      · exact absurd (h.sublist.mem (by simp [tok])) hname_clean
      · rcases List.infix_cons_iff.mp h with hp2 | hi2
        · exfalso
          rw [tok, List.cons_prefix_cons] at hp2
          simp at hp2
        · refine List.mem_cons_of_mem _ ?_
          refine ih (fun n hn => hnames n (List.mem_cons_of_mem _ hn))
            γ hne hnb ?_
          rw [htail]
          exact hi2
      · exfalso
        rcases hdd : (tok γ).drop m with _ | ⟨b, w⟩
        · have hlen := congrArg List.length hdd
          rw [List.length_drop] at hlen
          simp at hlen
          omega
        · rw [hdd] at hpref
          rw [List.cons_prefix_cons] at hpref
          have hb : b = ']' := hpref.1
          subst hb
          have hsplit : ('[' :: γ) ++ [']'] = (tok γ).take m ++ ']' :: w := by
            rw [← tok_eq_append, ← hdd, List.take_append_drop]
          rcases append_eq_append_cons hsplit with ⟨a₂, hx, _⟩ | ⟨b₁, hx, hy⟩
          · have hcm : ']' ∈ '[' :: γ := by rw [hx]; simp
            rcases List.mem_cons.mp hcm with h' | h'
            · simp at h'
            · exact hnb h'
          · have hb₁ : b₁ = [] := by
              have := congrArg List.length hy
              simp at this
              exact List.eq_nil_of_length_eq_zero (by omega)
            subst hb₁
            rw [List.append_nil] at hx
            apply hname_clean
            refine hsuf.sublist.mem ?_
            rw [hx]
            simp
  | case3 rest name hcnd ih =>
    intro hnames γ hne hnb hinf
    rw [scanAux_open_neg rest hcnd] at hnames ⊢
    rcases List.infix_cons_iff.mp hinf with hp | hi
    · exfalso
      rw [tok, List.cons_prefix_cons] at hp
      rcases hp.2 with ⟨d, hd⟩
      rw [List.append_assoc] at hd
      have hd' : rest = γ ++ ']' :: d := by rw [← hd]; simp
      have htw := takeWhile_brkt γ d hnb
      refine hcnd ⟨?_, ?_⟩
      · show rest.takeWhile (· ≠ ']') ≠ []
        rw [hd', htw.1]
        exact hne
      · show rest.dropWhile (· ≠ ']') ≠ []
        rw [hd', htw.2]
        simp
    · exact ih hnames γ hne hnb hi
  | case4 c rest hc ih =>
    intro hnames γ hne hnb hinf
    rw [scanAux_cons_ne c rest (fun h => hc h)] at hnames ⊢
    rcases List.infix_cons_iff.mp hinf with hp | hi
    · exfalso
      rw [tok, List.cons_prefix_cons] at hp
      exact hc hp.1.symm
    · exact ih hnames γ hne hnb hi

/-- C9, counterexample to the claim as stated.  Paragraph with runs
`"[a[b"` and `"]"`: the concatenated text `"[a[b]"` contains the token
`[b]`, split across the two runs, yet the scanner (which matches the
joined text greedily from each `'['` to the next `']'`) reports only
`"a[b"`, not `"b"`. -/
theorem c9_counterexample :
    Occ (paraText ["[a[b".data, "]".data]) (tok "b".data) 2 ∧
      ¬ InOneRun (tok "b".data) ["[a[b".data, "]".data] 2 ∧
      "b".data ∉ scanAux (paraText ["[a[b".data, "]".data]) := by
  refine ⟨?_, ?_, ?_⟩
  · unfold Occ paraText
    decide
  · intro hcon
    simp only [InOneRun] at hcon
    rcases hcon with h | ⟨h, _⟩
    · simp [tok] at h
    · simp at h
  · unfold paraText
    show "b".data ∉ scanAux "[a[b]".data
    simp [scanAux]

/-- C9, amended.  The asymmetry holds for placeholders with clean names:
if the paragraph's scanned names are `'['`-free and the concatenated run
texts contain `[Name]` (split across runs), the scanner still reports
`Name`; and if no Value-Set token occurs inside any single run — in
particular when every occurrence is split — the substitutor changes
nothing: it matches only individual run texts. -/
theorem c9_amended (p : Para) (values : List (Str × Str)) (Name : Str)
    (hclean : ∀ n ∈ scanAux (paraText p), '[' ∉ n)
    (hne : Name ≠ []) (hnb : ']' ∉ Name)
    (i : Nat) (hocc : Occ (paraText p) (tok Name) i)
    (hsplit : ¬ InOneRun (tok Name) p i) :
    Name ∈ scanAux (paraText p) ∧
      ((∀ kv ∈ values, ∀ r ∈ p, ¬ tok kv.1 <:+: r) →
        replace_in_paragraph p values = p) := by
  constructor
  · exact scanAux_finds _ hclean Name hne hnb
      (infix_iff_exists_occ.mpr ⟨i, hocc⟩)
  · intro hnor
    unfold replace_in_paragraph
    split
    · rfl
    · exact map_id_of_mem
        (fun r hr => replaceRun_id (fun kv hkv => hnor kv hkv r hr))

/-- C9, witness: `[Name]` split as `"[Na" ++ "me]"` is reported by the
scanner but left untouched by fill. -/
theorem c9_amended_witness :
    "Name".data ∈ scanAux (paraText ["[Na".data, "me]".data]) ∧
      replace_in_paragraph ["[Na".data, "me]".data]
        [("Name".data, "X".data)] = ["[Na".data, "me]".data] := by
  have h := c9_amended ["[Na".data, "me]".data] [("Name".data, "X".data)]
    "Name".data
    (by
      unfold paraText
      show ∀ n ∈ scanAux "[Name]".data, '[' ∉ n
      simp [scanAux])
    (by decide) (by decide) 0
    (by unfold Occ paraText; decide)
    (by
      intro hcon
      simp only [InOneRun] at hcon
      rcases hcon with h | ⟨h, _⟩
      · simp [tok] at h
      · simp at h)
  refine ⟨h.1, h.2 ?_⟩
  intro kv hkv r hr hinf
  simp only [List.mem_singleton] at hkv
  subst hkv
  rcases List.mem_cons.mp hr with h0 | h0
  · subst h0
    exact absurd hinf (by decide)
  · simp only [List.mem_singleton] at h0
    subst h0
    exact absurd hinf (by decide)

end CvFiller
